import Mathlib

set_option maxHeartbeats 1000000

/-!
Shallow embedding of the cruzdb log-ingest core: the entry service
(src/src/db/entry_service.cc) and the transaction facade
(src/src/db/transaction_impl.cc).  C++ assertions are modelled as
failures (Option.none); machine integers are Nat (positions are u64 and
never approach overflow in any claim).  The ordered map
std::map<uint64_t, ...> is modelled as a key-sorted association list.
-/

namespace CruzDB

/-- An intention record as delivered to intention queues: the log position
assigned to it and the (opaque) body, represented by its client token. -/
structure Intention where
  pos : Nat
  token : Nat
deriving DecidableEq, Repr

/-- A decoded log entry: the tagged union cruzdb_proto::LogEntry, with
bodies reduced to the fields the core inspects (the token of an intention,
the intention back-reference of an after-image). -/
inductive LEntry where
  | intent (token : Nat)
  | afterImage (ref : Nat)
deriving DecidableEq, Repr

/-- Whether a log slot holds an intention entry. -/
def isIntent : Option LEntry → Bool
  | some (.intent _) => true
  | _ => false

/-! ## EntryService::IntentionQueue (entry_service.cc lines 238-279) -/

/-- IntentionQueue state: the position cursor pos_, the deque q_ and the
stop flag.  q records the full push history (Wait pops from the front). -/
structure IntentionQueue where
  pos : Nat
  q : List Intention
  stopped : Bool
deriving DecidableEq, Repr

/-- IntentionQueue::Push: asserts pos_ <= intention.Position(), advances
pos_ to intention.Position() + 1 and enqueues.  The failed assertion is
Option.none. -/
def queuePush (qu : IntentionQueue) (i : Intention) : Option IntentionQueue :=
  if qu.pos ≤ i.pos then
    some { qu with pos := i.pos + 1, q := qu.q ++ [i] }
  else
    none

/-- An operation on an intention queue: Push, Wait or Stop. -/
inductive QOp where
  | push (i : Intention)
  | wait
  | stop
deriving DecidableEq, Repr

/-- One queue operation.  Wait blocks until non-empty or stopped: on stop it
returns the empty sentinel leaving the deque alone, otherwise it pops the
front (an empty deque blocks, modelled as no state change). -/
def applyQOp (qu : IntentionQueue) : QOp → Option IntentionQueue
  | .push i => queuePush qu i
  | .wait => if qu.stopped then some qu else some { qu with q := qu.q.tail }
  | .stop => some { qu with stopped := true }

/-- A sequence of queue operations. -/
def runQOps (qu : IntentionQueue) : List QOp → Option IntentionQueue
  | [] => some qu
  | op :: ops => (applyQOp qu op).bind fun qu2 => runQOps qu2 ops

/-! ## EntryCache (entry_service.cc lines 37-57)

The container intentions_ lives in the header, which is not under src/.
Modelled from the spec: an insertion-order FIFO of (position, intention)
pairs ("the intention pre-fetch cache ... is bounded by an insertion-order
FIFO"); erase(begin()) removes the oldest entry. -/

/-- The intention pre-fetch cache consulted by the intention loop and
populated by AppendIntention. -/
structure EntryCache where
  intentions : List (Nat × Intention)
deriving DecidableEq, Repr

/-- EntryCache::Insert: if more than 10 entries are present the oldest is
erased first; then the intention is emplaced under its position (emplace
does nothing when the key is already present). -/
def EntryCache.insert (c : EntryCache) (i : Intention) : EntryCache :=
  let base := if 10 < c.intentions.length then c.intentions.tail else c.intentions
  if (base.find? (fun e => e.1 = i.pos)).isSome then ⟨base⟩
  else ⟨base ++ [(i.pos, i)]⟩

/-- EntryCache::FindIntention: lookup by position. -/
def EntryCache.findIntention (c : EntryCache) (p : Nat) : Option Intention :=
  (c.intentions.find? (fun e => e.1 = p)).map (fun e => e.2)

/-- Insert a batch of intentions in order. -/
def insertAll (c : EntryCache) (is : List Intention) : EntryCache :=
  is.foldl EntryCache.insert c

/-! ## TransactionImpl (transaction_impl.cc) -/

/-- The tentative persistent tree owned by a transaction.
Modelled from the spec: PersistentTree (persistent_tree.cc is not under
src/) is reduced to the one observation TransactionImpl::Commit makes of
it, ReadOnly(), which holds exactly when no Put/Delete has mutated the
tree ("If the tree is read-only (no mutations), returns true
immediately"). -/
structure PTreeTx where
  readOnlyFlag : Bool
deriving DecidableEq, Repr

/-- One operation recorded into the in-progress intention. -/
inductive IntRecOp where
  | get (k : String)
  | put (k v : String)
  | del (k : String)
deriving DecidableEq, Repr

/-- TransactionImpl state: the tentative tree, the recorded intention ops
and the committed flag. -/
structure TransactionImpl where
  tree : PTreeTx
  intentionOps : List IntRecOp
  committed : Bool
deriving DecidableEq, Repr

/-- A fresh transaction: tentative tree (no mutations yet), empty
intention, not committed. -/
def initTx : TransactionImpl := ⟨⟨true⟩, [], false⟩

/-- A client call on a transaction. -/
inductive TxOp where
  | get (k : String)
  | put (k v : String)
  | del (k : String)
deriving DecidableEq, Repr

/-- Whether the call is a read. -/
def TxOp.isGet : TxOp → Bool
  | .get _ => true
  | _ => false

/-- TransactionImpl::Get / Put / Delete: all assert !committed_ (modelled
as none); Get records the read; Put/Delete record the op and mutate the
tentative tree, which is then no longer read-only. -/
def applyTxOp (t : TransactionImpl) : TxOp → Option TransactionImpl
  | .get k =>
    if t.committed then none
    else some { t with intentionOps := t.intentionOps ++ [.get k] }
  | .put k v =>
    if t.committed then none
    else some { t with intentionOps := t.intentionOps ++ [.put k v], tree := ⟨false⟩ }
  | .del k =>
    if t.committed then none
    else some { t with intentionOps := t.intentionOps ++ [.del k], tree := ⟨false⟩ }

/-- A sequence of transaction calls. -/
def runTxOps (t : TransactionImpl) : List TxOp → Option TransactionImpl
  | [] => some t
  | op :: ops => (applyTxOp t op).bind fun t2 => runTxOps t2 ops

/-- Result of Commit: the bool it returns, and whether the database commit
path (DBImpl::CompleteTransaction, the only path that appends to the log)
was invoked. -/
structure CommitEffect where
  result : Bool
  appended : Bool
deriving DecidableEq, Repr

/-- TransactionImpl::Commit: asserts !committed_, sets committed_, returns
true at once when the tree is read-only, otherwise hands off to
DBImpl::CompleteTransaction whose verdict is the parameter dbResult. -/
def txCommit (dbResult : Bool) (t : TransactionImpl) :
    Option (TransactionImpl × CommitEffect) :=
  if t.committed then none
  else
    let t2 := { t with committed := true }
    if t.tree.readOnlyFlag then some (t2, ⟨true, false⟩)
    else some (t2, ⟨dbResult, true⟩)

/-! ## PrimaryAfterImageMatcher (entry_service.cc lines 330-431) -/

/-- The fields of cruzdb_proto::AfterImage the matcher inspects: the
intention back-reference ai.intention(). -/
structure AIData where
  intention : Nat
deriving DecidableEq, Repr

/-- The persistent tree handed to watch: its intention position
(PersistentTree::Intention()) and the after-image position stamped by
SetAfterImage. -/
structure PTreeM where
  intentionPos : Nat
  afterImage : Option Nat
deriving DecidableEq, Repr

/-- An opaque SharedNodeRef. -/
abbrev NodeRef := Nat

/-- The delta vector<SharedNodeRef> passed through the matcher. -/
abbrev Delta := List NodeRef

/-- A matched (delta, tree) pair as enqueued on matched_. -/
abbrev MPair := Delta × PTreeM

/-- A matcher slot: struct PrimaryAfterImage { pos; tree; delta }. -/
structure PrimaryAfterImage where
  pos : Option Nat
  tree : Option PTreeM
  delta : Delta
deriving DecidableEq, Repr

/-- The matcher state: afterimages_ (std::map, key-sorted association
list), matched_, matched_watermark_ and the shutdown flag. -/
structure MatcherState where
  afterimages : List (Nat × PrimaryAfterImage)
  matched : List MPair
  matchedWatermark : Nat
  shutdownFlag : Bool
deriving DecidableEq, Repr

/-- afterimages_.find. -/
def slotFind : List (Nat × PrimaryAfterImage) → Nat → Option PrimaryAfterImage
  | [], _ => none
  | (k, v) :: rest, i => if k = i then some v else slotFind rest i

/-- Key-ordered insert; at an existing key it replaces the value (used for
both emplace at an absent key and mutation through the iterator). -/
def slotInsert : List (Nat × PrimaryAfterImage) → Nat → PrimaryAfterImage →
    List (Nat × PrimaryAfterImage)
  | [], i, v => [(i, v)]
  | (k, w) :: rest, i, v =>
    if i < k then (i, v) :: (k, w) :: rest
    else if i = k then (i, v) :: rest
    else (k, w) :: slotInsert rest i v

/-- PrimaryAfterImageMatcher::gc walk: from the smallest key, assert
matched_watermark_ < key (none on failure), erase slots whose two sides
are both gone while advancing the watermark, stop at the first live
slot. -/
def gcWalk : Nat → List (Nat × PrimaryAfterImage) →
    Option (Nat × List (Nat × PrimaryAfterImage))
  | w, [] => some (w, [])
  | w, (k, pai) :: rest =>
    if w < k then
      if pai.pos = none ∧ pai.tree = none then gcWalk k rest
      else some (w, (k, pai) :: rest)
    else none

/-- gc() applied to the whole state. -/
def runGc (s : MatcherState) : Option MatcherState :=
  (gcWalk s.matchedWatermark s.afterimages).map fun r =>
    { s with matchedWatermark := r.1, afterimages := r.2 }

/-- PrimaryAfterImageMatcher::watch.  Returns the new state and the list of
pairs appended to matched_ by this call; a failed assertion is none. -/
def watchM (s : MatcherState) (delta : Delta) (tree : PTreeM) :
    Option (MatcherState × List MPair) :=
  let ipos := tree.intentionPos
  match slotFind s.afterimages ipos with
  | none =>
    (runGc { s with
      afterimages := slotInsert s.afterimages ipos ⟨none, some tree, delta⟩ }).map
      fun s2 => (s2, [])
  | some pai =>
    match pai.pos, pai.tree with
    | some p, none =>
      let tr := { tree with afterImage := some p }
      (runGc { s with
        afterimages := slotInsert s.afterimages ipos ⟨none, none, pai.delta⟩,
        matched := s.matched ++ [(delta, tr)] }).map
        fun s2 => (s2, [(delta, tr)])
    | _, _ => none

/-- PrimaryAfterImageMatcher::push.  An after-image at or below the
watermark is dropped before gc; a pre-arrival creates a slot; a pending
tree is matched; any other shape falls through to gc. -/
def pushM (s : MatcherState) (ai : AIData) (p : Nat) :
    Option (MatcherState × List MPair) :=
  let ipos := ai.intention
  if ipos ≤ s.matchedWatermark then some (s, [])
  else
    match slotFind s.afterimages ipos with
    | none =>
      (runGc { s with
        afterimages := slotInsert s.afterimages ipos ⟨some p, none, []⟩ }).map
        fun s2 => (s2, [])
    | some pai =>
      match pai.pos, pai.tree with
      | none, some t =>
        if t.intentionPos = ipos then
          let tr := { t with afterImage := some p }
          (runGc { s with
            afterimages := slotInsert s.afterimages ipos ⟨none, none, []⟩,
            matched := s.matched ++ [(pai.delta, tr)] }).map
            fun s2 => (s2, [(pai.delta, tr)])
        else none
      | _, _ => (runGc s).map fun s2 => (s2, [])

/-- The value match() returns: blocked (no pair yet, no shutdown), the
empty pair after shutdown, or a popped pair. -/
inductive MatchResult where
  | blocked
  | emptyPair
  | pair (d : Delta) (t : PTreeM)
deriving DecidableEq, Repr

/-- PrimaryAfterImageMatcher::match: the shutdown flag takes priority over
draining matched_. -/
def matchM (s : MatcherState) : MatchResult × MatcherState :=
  if s.shutdownFlag then (.emptyPair, s)
  else
    match s.matched with
    | [] => (.blocked, s)
    | pr :: rest => (.pair pr.1 pr.2, { s with matched := rest })

/-- PrimaryAfterImageMatcher::shutdown. -/
def shutdownM (s : MatcherState) : MatcherState := { s with shutdownFlag := true }

/-- A matcher mutation: a local watch or a remote push. -/
inductive MOp where
  | watch (delta : Delta) (tree : PTreeM)
  | push (ai : AIData) (p : Nat)
deriving DecidableEq, Repr

/-- Apply one matcher mutation. -/
def applyMOp (s : MatcherState) : MOp → Option (MatcherState × List MPair)
  | .watch d t => watchM s d t
  | .push ai p => pushM s ai p

/-- Run a sequence of matcher mutations collecting every pair appended to
matched_ along the way. -/
def runMOps (s : MatcherState) : List MOp → Option (MatcherState × List MPair)
  | [] => some (s, [])
  | op :: ops =>
    (applyMOp s op).bind fun se =>
      (runMOps se.1 ops).map fun se2 => (se2.1, se.2 ++ se2.2)

/-- The constructed matcher: shutdown_(false), matched_watermark_(0). -/
def initMatcher : MatcherState := ⟨[], [], 0, false⟩

/-- The pairs among em whose tree has intention position I. -/
def pairsFor (em : List MPair) (I : Nat) : List MPair :=
  em.filter (fun pr => pr.2.intentionPos = I)

/-- The position argument of the first push in ops whose after-image
references intention I. -/
def firstPush : List MOp → Nat → Option Nat
  | [], _ => none
  | .push ai p :: rest, I => if ai.intention = I then some p else firstPush rest I
  | .watch _ _ :: rest, I => firstPush rest I

/-- The matcher pushes the IO loop performs while scanning a log segment in
ascending position order (IOEntry, lines 200-205): one push per after-image
entry, carrying its body and its position. -/
def ioPushes (log : List LEntry) : List MOp :=
  (List.range log.length).filterMap fun p =>
    match log.get? p with
    | some (.afterImage ref) => some (.push ⟨ref⟩ p)
    | _ => none

/-! ## EntryService::ReadIntentions (entry_service.cc lines 281-328) -/

/-- A CacheEntry of the service-wide entry_cache_: the type tag plus the
shared ref it holds. -/
inductive CEntry where
  | intent (i : Intention)
  | afterImage (ref : Nat)
deriving DecidableEq, Repr

/-- entry_cache_ (a map keyed by position; emplace keeps the first
publisher for a position). -/
abbrev ECache := List (Nat × CEntry)

/-- entry_cache_.find. -/
def ecFind : ECache → Nat → Option CEntry
  | [], _ => none
  | (k, e) :: rest, p => if k = p then some e else ecFind rest p

/-- entry_cache_.emplace: inserts only when the key is absent. -/
def ecEmplace (c : ECache) (p : Nat) (e : CEntry) : ECache :=
  match ecFind c p with
  | some _ => c
  | none => c ++ [(p, e)]

/-- First pass of ReadIntentions, under the lock: collect the cached
intentions in request order and the missing positions in request order; a
cached entry of the wrong type fails the assertion. -/
def collectHits (c : ECache) : List Nat → Option (List Intention × List Nat)
  | [] => some ([], [])
  | p :: rest =>
    match ecFind c p with
    | some (.intent i) => (collectHits c rest).map (fun r => (i :: r.1, r.2))
    | some (.afterImage _) => none
    | none => (collectHits c rest).map (fun r => (r.1, p :: r.2))

/-- Second pass: each missing position is read from the log (the read must
succeed and decode to an intention), published into the cache
(first publisher wins) and the published entry is appended. -/
def readMissing (log : Nat → Option LEntry) : ECache → List Nat →
    Option (List Intention × ECache)
  | c, [] => some ([], c)
  | c, p :: rest =>
    match log p with
    | some (.intent tok) =>
      let c2 := ecEmplace c p (.intent ⟨p, tok⟩)
      match ecFind c2 p with
      | some (.intent i) => (readMissing log c2 rest).map (fun r => (i :: r.1, r.2))
      | _ => none
    | _ => none

/-- EntryService::ReadIntentions: asserts the request list is non-empty;
returns the cache hits (in request order) followed by the log reads of the
missing positions (in request order), with the updated cache. -/
def readIntentions (log : Nat → Option LEntry) (c : ECache) (addrs : List Nat) :
    Option (List Intention × ECache) :=
  if addrs.isEmpty then none
  else
    (collectHits c addrs).bind fun r =>
      (readMissing log c r.2).map fun r2 => (r.1 ++ r2.1, r2.2)

/-- The cached intention at p, when the cache holds an intention there. -/
def cacheHit (c : ECache) (p : Nat) : Option Intention :=
  match ecFind c p with
  | some (.intent i) => some i
  | _ => none

/-- The intention the log holds at p, when it holds one. -/
def logIntent (log : Nat → Option LEntry) (p : Nat) : Option Intention :=
  match log p with
  | some (.intent tok) => some ⟨p, tok⟩
  | _ => none

/-! ## EntryService::IntentionReader (entry_service.cc lines 71-158) -/

/-- Intention-loop state: the loop cursor pos, last_min_pos, and the
registered intention queues. -/
structure ReaderState where
  cursor : Nat
  lastMin : Option Nat
  queues : List IntentionQueue
deriving DecidableEq, Repr

/-- The minimum position requested by any queue (the code seeds the fold
with the front queue's position). -/
def minQPos : List IntentionQueue → Nat
  | [] => 0
  | qu :: rest => rest.foldl (fun m q2 => min m q2.pos) qu.pos

/-- Push intention i read at log position c to every queue whose
Position() is at or below c, in registration order (each Push carries its
own assertion). -/
def pushEligible : List IntentionQueue → Nat → Intention →
    Option (List IntentionQueue)
  | [], _, _ => some []
  | qu :: rest, c, i =>
    (if qu.pos ≤ c then queuePush qu i else some qu).bind fun qu2 =>
      (pushEligible rest c i).map fun qs => qu2 :: qs

/-- The body of one intention-loop iteration after the last_min_pos
bookkeeping: consult the pre-fetch cache, else read the log; a hole
(-ENOENT) does not advance the cursor; an after-image is skipped; an
intention is pushed to every eligible queue. -/
def readerProcess (log : Nat → Option LEntry) (cache : Nat → Option Intention)
    (s : ReaderState) : Option ReaderState :=
  match cache s.cursor with
  | some i =>
    (pushEligible s.queues s.cursor i).map fun qs =>
      { s with cursor := s.cursor + 1, queues := qs }
  | none =>
    match log s.cursor with
    | none => some s
    | some (.intent tok) =>
      (pushEligible s.queues s.cursor ⟨s.cursor, tok⟩).map fun qs =>
        { s with cursor := s.cursor + 1, queues := qs }
    | some (.afterImage _) => some { s with cursor := s.cursor + 1 }

/-- One full iteration of IntentionReader's while loop: with no queues
last_min_pos is cleared; on the first pass the cursor starts at the
minimum requested position; a rewound minimum resets last_min_pos;
otherwise last_min_pos advances and the cursor's position is processed. -/
def readerStep (log : Nat → Option LEntry) (cache : Nat → Option Intention)
    (s : ReaderState) : Option ReaderState :=
  if s.queues.isEmpty then some { s with lastMin := none }
  else
    match s.lastMin with
    | none =>
      readerProcess log cache
        { s with cursor := minQPos s.queues, lastMin := some (minQPos s.queues) }
    | some l =>
      if minQPos s.queues < l then some { s with lastMin := none }
      else readerProcess log cache { s with lastMin := some (minQPos s.queues) }

/-- n iterations of the intention loop. -/
def readerRun (log : Nat → Option LEntry) (cache : Nat → Option Intention) :
    ReaderState → Nat → Option ReaderState
  | s, 0 => some s
  | s, n + 1 => (readerStep log cache s).bind fun s2 => readerRun log cache s2 n

/-- The reader with one queue per start position, registered before the
loop runs. -/
def initReader (starts : List Nat) : ReaderState :=
  ⟨0, none, starts.map (fun p => ⟨p, [], false⟩)⟩

/-- The intention positions of the log segment [a, b). -/
def intentPositions (log : Nat → Option LEntry) (a b : Nat) : List Nat :=
  (List.range' a (b - a)).filter (fun p => isIntent (log p))

/-- The next position a queue that started at p0 wants once positions
below c have been processed. -/
def nextWanted (log : Nat → Option LEntry) (p0 c : Nat) : Nat :=
  match (intentPositions log p0 c).getLast? with
  | none => p0
  | some q => q + 1

/-- The intention a log intention slot decodes to. -/
def intentAt (log : Nat → Option LEntry) (p : Nat) : Intention :=
  match log p with
  | some (.intent tok) => ⟨p, tok⟩
  | _ => ⟨p, 0⟩

/-- Minimum of the registered start positions. -/
def minStart : List Nat → Nat
  | [] => 0
  | p :: rest => rest.foldl min p

/-- The log prefix the run has covered: nothing before the first
iteration, [minStart, cursor) afterwards. -/
def coverage (starts : List Nat) (s : ReaderState) : Nat :=
  match s.lastMin with
  | none => minStart starts
  | some _ => s.cursor

/-- The per-queue delivery invariant: a queue that started at p0 has been
pushed exactly the intentions at intention positions in [p0, c), in order,
and wants position nextWanted next. -/
def QInv (log : Nat → Option LEntry) (p0 c : Nat) (qu : IntentionQueue) : Prop :=
  qu.q = (intentPositions log p0 c).map (intentAt log) ∧
  qu.pos = nextWanted log p0 c

/-- The intention-loop invariant: either nothing has been processed yet
(first pass pending), or last_min_pos is at or below every queue position
and every queue satisfies the delivery invariant up to the cursor. -/
def RInv (log : Nat → Option LEntry) (starts : List Nat) (s : ReaderState) : Prop :=
  (s.lastMin = none ∧ s.queues = starts.map (fun p => ⟨p, [], false⟩)) ∨
  (∃ l, s.lastMin = some l ∧ l ≤ minQPos s.queues ∧
    List.Forall₂ (fun p0 qu => QInv log p0 s.cursor qu) starts s.queues)

/-! ## Matcher invariants -/

/-- The smallest-key slot (the one gc visits first) has a side left. -/
def headLive : List (Nat × PrimaryAfterImage) → Prop
  | [] => True
  | e :: _ => ¬(e.2.pos = none ∧ e.2.tree = none)

/-- A live slot never holds both sides, and a pending tree is keyed by its
own intention position. -/
def slotShapeOK (e : Nat × PrimaryAfterImage) : Prop :=
  ¬(e.2.pos.isSome = true ∧ e.2.tree.isSome = true) ∧
  (∀ t, e.2.tree = some t → t.intentionPos = e.1)

/-- The matcher state invariant: afterimages_ is key-sorted, every key is
above the watermark, gc has already removed any leading both-sides-gone
slot, and every slot is well-shaped. -/
def MInv (s : MatcherState) : Prop :=
  List.Pairwise (fun a b => a.1 < b.1) s.afterimages ∧
  (∀ e ∈ s.afterimages, s.matchedWatermark < e.1) ∧
  headLive s.afterimages ∧
  (∀ e ∈ s.afterimages, slotShapeOK e)

/-- How one matcher step can change the slot of an intention position J it
does not target: either it leaves it alone, or gc erased a both-sides-gone
slot moving the watermark past J. -/
def Evolve (s s2 : MatcherState) (J : Nat) : Prop :=
  slotFind s2.afterimages J = slotFind s.afterimages J ∨
  (∃ d, slotFind s.afterimages J = some ⟨none, none, d⟩ ∧
    slotFind s2.afterimages J = none ∧ J ≤ s2.matchedWatermark)

/-- The intention position a matcher mutation is about. -/
def mopTarget : MOp → Nat
  | .watch _ t => t.intentionPos
  | .push ai _ => ai.intention

/-- At most one pair for I, and every pair for I carries the after-image
position fp. -/
def Carry (fp : Option Nat) (em : List MPair) (I : Nat) : Prop :=
  (pairsFor em I).length ≤ 1 ∧
  ∀ pr ∈ pairsFor em I, ∃ p1, fp = some p1 ∧ pr.2.afterImage = some p1

/-! ### Slot association-list lemmas -/

theorem slotFind_mem : ∀ {l : List (Nat × PrimaryAfterImage)} {i : Nat}
    {v : PrimaryAfterImage}, slotFind l i = some v → (i, v) ∈ l
  | [], _, _, h => by simp [slotFind] at h
  | (k, w) :: rest, i, v, h => by
    simp only [slotFind] at h
    split at h
    · cases h
      simp_all
    · exact List.mem_cons_of_mem _ (slotFind_mem h)

theorem slotFind_eq_none : ∀ {l : List (Nat × PrimaryAfterImage)} {i : Nat},
    slotFind l i = none ↔ ∀ e ∈ l, e.1 ≠ i
  | [], i => by simp [slotFind]
  | (k, w) :: rest, i => by
    simp only [slotFind]
    split
    · simp_all
    · rw [slotFind_eq_none]
      constructor
      · intro h e he
        rcases List.mem_cons.mp he with he | he
        · subst he; simpa using (by assumption : ¬ k = i)
        · exact h e he
      · intro h e he
        exact h e (List.mem_cons_of_mem _ he)

theorem slotInsert_find_self : ∀ (l : List (Nat × PrimaryAfterImage)) (i : Nat)
    (v : PrimaryAfterImage), slotFind (slotInsert l i v) i = some v
  | [], i, v => by simp [slotInsert, slotFind]
  | (k, w) :: rest, i, v => by
    simp only [slotInsert]
    split
    · simp [slotFind]
    · split
      · simp [slotFind]
      · have hki : ¬ k = i := by omega
        simp only [slotFind, if_neg hki]
        exact slotInsert_find_self rest i v

theorem slotInsert_find_other : ∀ (l : List (Nat × PrimaryAfterImage)) (i : Nat)
    (v : PrimaryAfterImage) (j : Nat), j ≠ i →
    slotFind (slotInsert l i v) j = slotFind l j
  | [], i, v, j, h => by
    simp only [slotInsert, slotFind]
    rw [if_neg (fun hij => h hij.symm)]
  | (k, w) :: rest, i, v, j, h => by
    simp only [slotInsert]
    split
    · simp only [slotFind]
      rw [if_neg (fun hij => h hij.symm)]
    · split
      · rename_i hik
        simp only [slotFind]
        rw [if_neg (fun hij => h hij.symm), if_neg (by omega : ¬ k = j)]
      · simp only [slotFind]
        split
        · rfl
        · exact slotInsert_find_other rest i v j h

theorem slotInsert_mem : ∀ {l : List (Nat × PrimaryAfterImage)} {i : Nat}
    {v : PrimaryAfterImage} {e : Nat × PrimaryAfterImage},
    e ∈ slotInsert l i v → e = (i, v) ∨ e ∈ l
  | [], i, v, e, h => by simpa [slotInsert] using h
  | (k, w) :: rest, i, v, e, h => by
    simp only [slotInsert] at h
    split at h
    · rcases List.mem_cons.mp h with h | h
      · exact Or.inl h
      · exact Or.inr h
    · split at h
      · rcases List.mem_cons.mp h with h | h
        · exact Or.inl h
        · exact Or.inr (List.mem_cons_of_mem _ h)
      · rcases List.mem_cons.mp h with h | h
        · exact Or.inr (by simp [h])
        · rcases slotInsert_mem h with h | h
          · exact Or.inl h
          · exact Or.inr (List.mem_cons_of_mem _ h)

theorem slotInsert_pairwise : ∀ {l : List (Nat × PrimaryAfterImage)} {i : Nat}
    {v : PrimaryAfterImage},
    List.Pairwise (fun a b => a.1 < b.1) l →
    List.Pairwise (fun a b => a.1 < b.1) (slotInsert l i v)
  | [], i, v, _ => by simp [slotInsert]
  | (k, w) :: rest, i, v, hp => by
    rcases List.pairwise_cons.mp hp with ⟨hk, hrest⟩
    simp only [slotInsert]
    split
    · refine List.pairwise_cons.mpr ⟨?_, hp⟩
      intro e he
      rcases List.mem_cons.mp he with he | he
      · subst he; simpa using (by assumption : i < k)
      · exact Nat.lt_trans (by assumption) (hk e he)
    · split
      · rename_i hik
        refine List.pairwise_cons.mpr ⟨?_, hrest⟩
        intro e he
        have := hk e he
        omega
      · refine List.pairwise_cons.mpr ⟨?_, slotInsert_pairwise hrest⟩
        intro e he
        rcases slotInsert_mem he with he | he
        · subst he
          simp only
          omega
        · exact hk e he

theorem slotInsert_head_small : ∀ {l : List (Nat × PrimaryAfterImage)} {i : Nat}
    {v : PrimaryAfterImage}, (∀ e ∈ l, i < e.1) →
    slotInsert l i v = (i, v) :: l
  | [], _, _, _ => rfl
  | (k, w) :: rest, i, v, h => by
    have : i < k := h (k, w) (List.mem_cons_self _ _)
    simp [slotInsert, this]

/-! ### gc lemmas -/

theorem gcWalk_wm_mono : ∀ {l : List (Nat × PrimaryAfterImage)} {w w2 : Nat}
    {l2 : List (Nat × PrimaryAfterImage)},
    gcWalk w l = some (w2, l2) → w ≤ w2
  | [], w, w2, l2, h => by
    simp only [gcWalk] at h
    cases h
    exact Nat.le_refl _
  | (k, pai) :: rest, w, w2, l2, h => by
    simp only [gcWalk] at h
    split at h
    · split at h
      · exact Nat.le_trans (Nat.le_of_lt (by assumption)) (gcWalk_wm_mono h)
      · cases h
        exact Nat.le_refl _
    · cases h

theorem gcWalk_find : ∀ {l : List (Nat × PrimaryAfterImage)} {w w2 : Nat}
    {l2 : List (Nat × PrimaryAfterImage)},
    gcWalk w l = some (w2, l2) →
    ∀ {i : Nat} {v : PrimaryAfterImage}, slotFind l i = some v →
      slotFind l2 i = some v ∨ (v.pos = none ∧ v.tree = none ∧ i ≤ w2)
  | [], w, w2, l2, h, i, v, hf => by simp [slotFind] at hf
  | (k, pai) :: rest, w, w2, l2, h, i, v, hf => by
    simp only [gcWalk] at h
    split at h
    · split at h
      · simp only [slotFind] at hf
        split at hf
        · cases hf
          rename_i hboth hki
          exact Or.inr ⟨hboth.1, hboth.2, hki ▸ gcWalk_wm_mono h⟩
        · exact gcWalk_find h hf
      · cases h
        exact Or.inl hf
    · cases h

theorem gcWalk_find_none : ∀ {l : List (Nat × PrimaryAfterImage)} {w w2 : Nat}
    {l2 : List (Nat × PrimaryAfterImage)},
    gcWalk w l = some (w2, l2) →
    ∀ {i : Nat}, slotFind l i = none → slotFind l2 i = none
  | [], w, w2, l2, h, i, hf => by
    simp only [gcWalk] at h
    cases h
    exact hf
  | (k, pai) :: rest, w, w2, l2, h, i, hf => by
    simp only [gcWalk] at h
    split at h
    · split at h
      · simp only [slotFind] at hf
        split at hf
        · cases hf
        · exact gcWalk_find_none h hf
      · cases h
        exact hf
    · cases h

theorem gcWalk_inv : ∀ {l : List (Nat × PrimaryAfterImage)} {w w2 : Nat}
    {l2 : List (Nat × PrimaryAfterImage)},
    List.Pairwise (fun a b => a.1 < b.1) l → (∀ e ∈ l, w < e.1) →
    gcWalk w l = some (w2, l2) →
    List.Pairwise (fun a b => a.1 < b.1) l2 ∧ (∀ e ∈ l2, w2 < e.1) ∧
      headLive l2 ∧ (∀ e ∈ l2, e ∈ l)
  | [], w, w2, l2, _, _, h => by
    simp only [gcWalk] at h
    cases h
    exact ⟨List.Pairwise.nil, by simp, trivial, by simp⟩
  | (k, pai) :: rest, w, w2, l2, hp, ha, h => by
    rcases List.pairwise_cons.mp hp with ⟨hk, hrest⟩
    simp only [gcWalk] at h
    split at h
    · split at h
      · have ih := gcWalk_inv hrest hk h
        exact ⟨ih.1, ih.2.1, ih.2.2.1,
          fun e he => List.mem_cons_of_mem _ (ih.2.2.2 e he)⟩
      · cases h
        refine ⟨hp, ha, ?_, fun e he => he⟩
        simpa [headLive] using (by assumption :
          ¬(pai.pos = none ∧ pai.tree = none))
    · cases h

theorem gcWalk_id {l : List (Nat × PrimaryAfterImage)} {w : Nat}
    (ha : ∀ e ∈ l, w < e.1) (hl : headLive l) :
    gcWalk w l = some (w, l) := by
  cases l with
  | nil => rfl
  | cons e rest =>
    have hw : w < e.1 := ha e (List.mem_cons_self _ _)
    simp only [gcWalk]
    rw [if_pos hw, if_neg hl]

theorem gcWalk_head_stuck {e : Nat × PrimaryAfterImage}
    {rest : List (Nat × PrimaryAfterImage)} {w : Nat} (h : e.1 ≤ w) :
    gcWalk w (e :: rest) = none := by
  obtain ⟨k, pai⟩ := e
  simp only [gcWalk]
  rw [if_neg (by simpa using h)]

theorem slotFind_none_of_above {l : List (Nat × PrimaryAfterImage)} {w i : Nat}
    (ha : ∀ e ∈ l, w < e.1) (hi : i ≤ w) : slotFind l i = none := by
  cases hfind : slotFind l i with
  | none => rfl
  | some v =>
    have := ha _ (slotFind_mem hfind)
    omega

/-- Effect of gc after mutating slot I (matched_ may change arbitrarily):
the invariant is preserved, the watermark cannot go down, the new slot
survives unless it was already both-sides-gone (then the watermark passed
it), and any other slot either stays put or is erased as both-sides-gone
under the new watermark. -/
theorem runGc_insert {s : MatcherState} {I : Nat} {v : PrimaryAfterImage}
    {m2 : List MPair} {s2 : MatcherState}
    (hinv : MInv s) (hwm : s.matchedWatermark < I) (hshape : slotShapeOK (I, v))
    (hgc : runGc { s with afterimages := slotInsert s.afterimages I v,
                          matched := m2 } = some s2) :
    MInv s2 ∧ s.matchedWatermark ≤ s2.matchedWatermark ∧
    (slotFind s2.afterimages I = some v ∨
      (v.pos = none ∧ v.tree = none ∧ slotFind s2.afterimages I = none ∧
        I ≤ s2.matchedWatermark)) ∧
    (∀ J, J ≠ I → Evolve s s2 J) ∧ s2.matched = m2 := by
  obtain ⟨hp, ha, _, hsh⟩ := hinv
  have hains : ∀ e ∈ slotInsert s.afterimages I v, s.matchedWatermark < e.1 := by
    intro e he
    rcases slotInsert_mem he with he | he
    · subst he; exact hwm
    · exact ha e he
  have hpins : List.Pairwise (fun a b => a.1 < b.1) (slotInsert s.afterimages I v) :=
    slotInsert_pairwise hp
  rw [runGc] at hgc
  cases hwalk : gcWalk s.matchedWatermark (slotInsert s.afterimages I v) with
  | none =>
    rw [hwalk] at hgc
    cases hgc
  | some r =>
    rw [hwalk] at hgc
    simp only [Option.map_some', Option.some.injEq] at hgc
    obtain ⟨w2, l2⟩ := r
    subst hgc
    obtain ⟨hp2, ha2, hl2, hsub2⟩ := gcWalk_inv hpins hains hwalk
    have hmono : s.matchedWatermark ≤ w2 := gcWalk_wm_mono hwalk
    refine ⟨⟨hp2, ha2, hl2, ?_⟩, hmono, ?_, ?_, rfl⟩
    · intro e he
      rcases slotInsert_mem (hsub2 e he) with he2 | he2
      · subst he2; exact hshape
      · exact hsh e he2
    · rcases gcWalk_find hwalk (slotInsert_find_self s.afterimages I v) with hk | hk
      · exact Or.inl hk
      · exact Or.inr ⟨hk.1, hk.2.1, slotFind_none_of_above ha2 hk.2.2, hk.2.2⟩
    · intro J hJ
      have hother := slotInsert_find_other s.afterimages I v J hJ
      cases hfJ : slotFind s.afterimages J with
      | none =>
        exact Or.inl ((gcWalk_find_none hwalk (hother.trans hfJ)).trans hfJ.symm)
      | some vJ =>
        rcases gcWalk_find hwalk (hother.trans hfJ) with hk | hk
        · exact Or.inl (hk.trans hfJ.symm)
        · refine Or.inr ⟨vJ.delta, ?_, slotFind_none_of_above ha2 hk.2.2, hk.2.2⟩
          rw [hfJ]
          obtain ⟨vp, vt, vd⟩ := vJ
          simp only at hk ⊢
          rw [hk.1, hk.2.1]

/-- Inserting a slot at or below the watermark makes it the smallest key
and the following gc fails its assertion. -/
theorem runGc_insert_stuck {s : MatcherState} {I : Nat} {v : PrimaryAfterImage}
    {m2 : List MPair}
    (hinv : MInv s) (hwm : I ≤ s.matchedWatermark) :
    runGc { s with afterimages := slotInsert s.afterimages I v,
                   matched := m2 } = none := by
  have hsmall : ∀ e ∈ s.afterimages, I < e.1 := by
    intro e he
    have := hinv.2.1 e he
    omega
  simp only [runGc]
  rw [slotInsert_head_small hsmall, gcWalk_head_stuck (by simpa using hwm)]
  rfl

/-! ### One matcher operation, by slot shape -/

/-- A push at or below the watermark is dropped before gc: no state
change, no emission. -/
theorem pushM_dropped {s : MatcherState} {ai : AIData} {p : Nat}
    (h : ai.intention ≤ s.matchedWatermark) :
    pushM s ai p = some (s, []) := by
  simp [pushM, h]

/-- watch on a slot whose pos side is absent (pending or both-gone) fails
its assertions. -/
theorem watchM_pos_none {s : MatcherState} {d : Delta} {t : PTreeM}
    {pai : PrimaryAfterImage}
    (hf : slotFind s.afterimages t.intentionPos = some pai)
    (hp : pai.pos = none) :
    watchM s d t = none := by
  obtain ⟨pos, tr, dl⟩ := pai
  simp only at hp
  subst hp
  simp only [watchM, hf]

/-- watch on an absent slot records the pending tree; the slot survives gc
and the watermark stays below the intention position. -/
theorem watchM_vacant {s : MatcherState} {d : Delta} {t : PTreeM}
    {s2 : MatcherState} {e : List MPair}
    (hinv : MInv s)
    (hf : slotFind s.afterimages t.intentionPos = none)
    (h : watchM s d t = some (s2, e)) :
    e = [] ∧ MInv s2 ∧ s.matchedWatermark ≤ s2.matchedWatermark ∧
    s.matchedWatermark < t.intentionPos ∧
    slotFind s2.afterimages t.intentionPos = some ⟨none, some t, d⟩ ∧
    (∀ J, J ≠ t.intentionPos → Evolve s s2 J) := by
  have hshape : slotShapeOK (t.intentionPos, (⟨none, some t, d⟩ : PrimaryAfterImage)) := by
    refine ⟨by simp, ?_⟩
    intro t2 ht2
    simp only [Option.some.injEq] at ht2
    subst ht2
    rfl
  simp only [watchM, hf] at h
  have hwm : s.matchedWatermark < t.intentionPos := by
    by_contra hc
    push_neg at hc
    rw [runGc_insert_stuck hinv hc] at h
    cases h
  cases hgc : runGc { s with
      afterimages := slotInsert s.afterimages t.intentionPos ⟨none, some t, d⟩ } with
  | none =>
    rw [hgc] at h
    cases h
  | some s3 =>
    rw [hgc] at h
    simp only [Option.map_some', Option.some.injEq, Prod.mk.injEq] at h
    obtain ⟨hs2, he⟩ := h
    subst hs2
    subst he
    obtain ⟨hinv2, hmono, hslot, hev, _⟩ := runGc_insert hinv hwm hshape hgc
    refine ⟨rfl, hinv2, hmono, hwm, ?_, hev⟩
    rcases hslot with hslot | hslot
    · exact hslot
    · simp at hslot

/-- watch on an observed slot stamps the tree with the recorded after-image
position and emits exactly that pair; the slot is both-sides-gone (possibly
already erased under the watermark). -/
theorem watchM_observed {s : MatcherState} {d : Delta} {t : PTreeM}
    {p : Nat} {d0 : Delta} {s2 : MatcherState} {e : List MPair}
    (hinv : MInv s)
    (hf : slotFind s.afterimages t.intentionPos = some ⟨some p, none, d0⟩)
    (h : watchM s d t = some (s2, e)) :
    e = [(d, { t with afterImage := some p })] ∧ MInv s2 ∧
    s.matchedWatermark ≤ s2.matchedWatermark ∧
    (slotFind s2.afterimages t.intentionPos = some ⟨none, none, d0⟩ ∨
      (slotFind s2.afterimages t.intentionPos = none ∧
        t.intentionPos ≤ s2.matchedWatermark)) ∧
    (∀ J, J ≠ t.intentionPos → Evolve s s2 J) := by
  have hwm : s.matchedWatermark < t.intentionPos := hinv.2.1 _ (slotFind_mem hf)
  have hshape : slotShapeOK (t.intentionPos, (⟨none, none, d0⟩ : PrimaryAfterImage)) := by
    exact ⟨by simp, by intro t2 ht2; cases ht2⟩
  simp only [watchM, hf] at h
  cases hgc : runGc { s with
      afterimages := slotInsert s.afterimages t.intentionPos ⟨none, none, d0⟩,
      matched := s.matched ++ [(d, { t with afterImage := some p })] } with
  | none =>
    rw [hgc] at h
    cases h
  | some s3 =>
    rw [hgc] at h
    simp only [Option.map_some', Option.some.injEq, Prod.mk.injEq] at h
    obtain ⟨hs2, he⟩ := h
    subst hs2
    subst he
    obtain ⟨hinv2, hmono, hslot, hev, _⟩ := runGc_insert hinv hwm hshape hgc
    refine ⟨rfl, hinv2, hmono, ?_, hev⟩
    rcases hslot with hslot | hslot
    · exact Or.inl hslot
    · exact Or.inr ⟨hslot.2.2.1, hslot.2.2.2⟩

/-- push on an absent slot above the watermark records the pre-arrival
after-image position; no emission. -/
theorem pushM_vacant {s : MatcherState} {ai : AIData} {p : Nat}
    {s2 : MatcherState} {e : List MPair}
    (hinv : MInv s)
    (hwm : s.matchedWatermark < ai.intention)
    (hf : slotFind s.afterimages ai.intention = none)
    (h : pushM s ai p = some (s2, e)) :
    e = [] ∧ MInv s2 ∧ s.matchedWatermark ≤ s2.matchedWatermark ∧
    slotFind s2.afterimages ai.intention = some ⟨some p, none, []⟩ ∧
    (∀ J, J ≠ ai.intention → Evolve s s2 J) := by
  have hgt : ¬ ai.intention ≤ s.matchedWatermark := by omega
  have hshape : slotShapeOK (ai.intention, (⟨some p, none, []⟩ : PrimaryAfterImage)) := by
    exact ⟨by simp, by intro t2 ht2; cases ht2⟩
  simp only [pushM, hgt, if_false, hf] at h
  cases hgc : runGc { s with
      afterimages := slotInsert s.afterimages ai.intention ⟨some p, none, []⟩ } with
  | none =>
    rw [hgc] at h
    cases h
  | some s3 =>
    rw [hgc] at h
    simp only [Option.map_some', Option.some.injEq, Prod.mk.injEq] at h
    obtain ⟨hs2, he⟩ := h
    subst hs2
    subst he
    obtain ⟨hinv2, hmono, hslot, hev, _⟩ := runGc_insert hinv hwm hshape hgc
    refine ⟨rfl, hinv2, hmono, ?_, hev⟩
    rcases hslot with hslot | hslot
    · exact hslot
    · simp at hslot

/-- push on a pending slot stamps the pending tree and emits exactly that
pair with the slot's stored delta; the slot is both-sides-gone (possibly
already erased under the watermark). -/
theorem pushM_pending {s : MatcherState} {ai : AIData} {p : Nat}
    {t : PTreeM} {d0 : Delta} {s2 : MatcherState} {e : List MPair}
    (hinv : MInv s)
    (hf : slotFind s.afterimages ai.intention = some ⟨none, some t, d0⟩)
    (h : pushM s ai p = some (s2, e)) :
    t.intentionPos = ai.intention ∧
    e = [(d0, { t with afterImage := some p })] ∧ MInv s2 ∧
    s.matchedWatermark ≤ s2.matchedWatermark ∧
    (slotFind s2.afterimages ai.intention = some ⟨none, none, []⟩ ∨
      (slotFind s2.afterimages ai.intention = none ∧
        ai.intention ≤ s2.matchedWatermark)) ∧
    (∀ J, J ≠ ai.intention → Evolve s s2 J) := by
  have hwm : s.matchedWatermark < ai.intention := hinv.2.1 _ (slotFind_mem hf)
  have hgt : ¬ ai.intention ≤ s.matchedWatermark := by omega
  have ht : t.intentionPos = ai.intention :=
    (hinv.2.2.2 _ (slotFind_mem hf)).2 t rfl
  have hshape : slotShapeOK (ai.intention, (⟨none, none, []⟩ : PrimaryAfterImage)) := by
    exact ⟨by simp, by intro t2 ht2; cases ht2⟩
  simp only [pushM, hgt, if_false, hf] at h
  rw [if_pos ht] at h
  cases hgc : runGc { s with
      afterimages := slotInsert s.afterimages ai.intention ⟨none, none, []⟩,
      matched := s.matched ++ [(d0, { t with afterImage := some p })] } with
  | none =>
    rw [hgc] at h
    cases h
  | some s3 =>
    rw [hgc] at h
    simp only [Option.map_some', Option.some.injEq, Prod.mk.injEq] at h
    obtain ⟨hs2, he⟩ := h
    subst hs2
    subst he
    obtain ⟨hinv2, hmono, hslot, hev, _⟩ := runGc_insert hinv hwm hshape hgc
    refine ⟨ht, rfl, hinv2, hmono, ?_, hev⟩
    rcases hslot with hslot | hslot
    · exact Or.inl hslot
    · exact Or.inr ⟨hslot.2.2.1, hslot.2.2.2⟩

/-- push on a slot that already has its after-image side, or is
both-sides-gone, changes nothing: the non-matching shape falls through to
gc, which is the identity on a gc-normalized state. -/
theorem pushM_noop {s : MatcherState} {ai : AIData} {p : Nat}
    {pai : PrimaryAfterImage}
    (hinv : MInv s)
    (hf : slotFind s.afterimages ai.intention = some pai)
    (hshape : pai.pos.isSome = true ∨ pai.tree = none) :
    pushM s ai p = some (s, []) := by
  have hwm : s.matchedWatermark < ai.intention := hinv.2.1 _ (slotFind_mem hf)
  have hgt : ¬ ai.intention ≤ s.matchedWatermark := by omega
  have hgc : runGc s = some s := by
    simp only [runGc]
    rw [gcWalk_id hinv.2.1 hinv.2.2.1]
    rfl
  obtain ⟨pos, tr, dl⟩ := pai
  rcases hshape with hs | hs
  · obtain ⟨p0, hp0⟩ := Option.isSome_iff_exists.mp hs
    simp only at hp0
    subst hp0
    cases tr <;> simp [pushM, hgt, hf, hgc]
  · simp only at hs
    subst hs
    cases pos <;> simp [pushM, hgt, hf, hgc]

/-! ### Generic matcher step and run lemmas -/

/-- Any successful matcher mutation preserves the invariant, never lowers
the watermark, emits only pairs for its own target position, and leaves
every other slot alone except for gc erasure of both-sides-gone slots. -/
theorem applyMOp_step {s s1 : MatcherState} {op : MOp} {e1 : List MPair}
    (hinv : MInv s) (h : applyMOp s op = some (s1, e1)) :
    MInv s1 ∧ s.matchedWatermark ≤ s1.matchedWatermark ∧
    (∀ pr ∈ e1, pr.2.intentionPos = mopTarget op) ∧
    (∀ J, J ≠ mopTarget op → Evolve s s1 J) := by
  cases op with
  | watch d t =>
    simp only [applyMOp] at h
    cases hf : slotFind s.afterimages t.intentionPos with
    | none =>
      obtain ⟨he, hinv2, hmono, _, _, hev⟩ := watchM_vacant hinv hf h
      subst he
      exact ⟨hinv2, hmono, by simp, hev⟩
    | some pai =>
      cases hpos : pai.pos with
      | none =>
        exfalso
        rw [watchM_pos_none hf hpos] at h
        cases h
      | some p =>
        have hshape := hinv.2.2.2 _ (slotFind_mem hf)
        cases htr : pai.tree with
        | some t2 =>
          exact absurd ⟨by simp [hpos], by simp [htr]⟩ hshape.1
        | none =>
          have hf2 : slotFind s.afterimages t.intentionPos =
              some ⟨some p, none, pai.delta⟩ := by
            rw [hf]
            obtain ⟨a, b, c⟩ := pai
            simp only at hpos htr
            rw [hpos, htr]
          obtain ⟨he, hinv2, hmono, _, hev⟩ := watchM_observed hinv hf2 h
          subst he
          refine ⟨hinv2, hmono, ?_, hev⟩
          intro pr hpr
          simp only [List.mem_singleton] at hpr
          subst hpr
          rfl
  | push ai p =>
    simp only [applyMOp] at h
    by_cases hwm : ai.intention ≤ s.matchedWatermark
    · rw [pushM_dropped hwm] at h
      simp only [Option.some.injEq, Prod.mk.injEq] at h
      obtain ⟨hs1, he⟩ := h
      subst hs1
      subst he
      exact ⟨hinv, Nat.le_refl _, by simp, fun J _ => Or.inl rfl⟩
    · push_neg at hwm
      cases hf : slotFind s.afterimages ai.intention with
      | none =>
        obtain ⟨he, hinv2, hmono, _, hev⟩ := pushM_vacant hinv hwm hf h
        subst he
        exact ⟨hinv2, hmono, by simp, hev⟩
      | some pai =>
        cases hpos : pai.pos with
        | some p0 =>
          rw [pushM_noop hinv hf (Or.inl (by simp [hpos]))] at h
          simp only [Option.some.injEq, Prod.mk.injEq] at h
          obtain ⟨hs1, he⟩ := h
          subst hs1
          subst he
          exact ⟨hinv, Nat.le_refl _, by simp, fun J _ => Or.inl rfl⟩
        | none =>
          cases htr : pai.tree with
          | none =>
            rw [pushM_noop hinv hf (Or.inr htr)] at h
            simp only [Option.some.injEq, Prod.mk.injEq] at h
            obtain ⟨hs1, he⟩ := h
            subst hs1
            subst he
            exact ⟨hinv, Nat.le_refl _, by simp, fun J _ => Or.inl rfl⟩
          | some t =>
            have hf2 : slotFind s.afterimages ai.intention =
                some ⟨none, some t, pai.delta⟩ := by
              rw [hf]
              obtain ⟨a, b, c⟩ := pai
              simp only at hpos htr
              rw [hpos, htr]
            obtain ⟨ht, he, hinv2, hmono, _, hev⟩ := pushM_pending hinv hf2 h
            subst he
            refine ⟨hinv2, hmono, ?_, hev⟩
            intro pr hpr
            simp only [List.mem_singleton] at hpr
            subst hpr
            simpa using ht

/-- Destructor for one step of a matcher run. -/
theorem runMOps_cons {s s2 : MatcherState} {op : MOp} {ops : List MOp}
    {em : List MPair}
    (h : runMOps s (op :: ops) = some (s2, em)) :
    ∃ s1 e1 e2, applyMOp s op = some (s1, e1) ∧
      runMOps s1 ops = some (s2, e2) ∧ em = e1 ++ e2 := by
  simp only [runMOps, Option.bind_eq_some, Option.map_eq_some'] at h
  obtain ⟨⟨s1, e1⟩, h1, ⟨s3, e2⟩, h2, h3⟩ := h
  simp only [Prod.mk.injEq] at h3
  exact ⟨s1, e1, e2, h1, h3.1 ▸ h2, h3.2.symm⟩

/-- A successful matcher run preserves the invariant and never lowers the
watermark. -/
theorem runMOps_inv : ∀ (ops : List MOp) (s s2 : MatcherState) (em : List MPair),
    MInv s → runMOps s ops = some (s2, em) →
    MInv s2 ∧ s.matchedWatermark ≤ s2.matchedWatermark
  | [], s, s2, em, hinv, h => by
    simp only [runMOps, Option.some.injEq, Prod.mk.injEq] at h
    obtain ⟨hs, _⟩ := h
    subst hs
    exact ⟨hinv, Nat.le_refl _⟩
  | op :: ops, s, s2, em, hinv, h => by
    obtain ⟨s1, e1, e2, h1, h2, _⟩ := runMOps_cons h
    obtain ⟨hinv1, hmono1, _, _⟩ := applyMOp_step hinv h1
    obtain ⟨hinv2, hmono2⟩ := runMOps_inv ops s1 s2 e2 hinv1 h2
    exact ⟨hinv2, Nat.le_trans hmono1 hmono2⟩

/-! ### Emission bookkeeping lemmas -/

theorem pairsFor_append (a b : List MPair) (I : Nat) :
    pairsFor (a ++ b) I = pairsFor a I ++ pairsFor b I := by
  simp [pairsFor, List.filter_append]

theorem pairsFor_nil_of_ne {e : List MPair} {T I : Nat}
    (h : ∀ pr ∈ e, pr.2.intentionPos = T) (hne : T ≠ I) : pairsFor e I = [] := by
  rw [pairsFor, List.filter_eq_nil_iff]
  intro pr hpr
  simp [h pr hpr, hne]

theorem Carry_of_nil {fp : Option Nat} {em : List MPair} {I : Nat}
    (h : pairsFor em I = []) : Carry fp em I := by
  refine ⟨by rw [h]; simp, ?_⟩
  intro pr hpr
  rw [h] at hpr
  cases hpr

theorem pairsFor_single_self {d : Delta} {t : PTreeM} {I : Nat}
    (h : t.intentionPos = I) : pairsFor [(d, t)] I = [(d, t)] := by
  simp [pairsFor, h]

theorem firstPush_push_self {ai : AIData} {I : Nat} (p : Nat) (ops : List MOp)
    (h : ai.intention = I) : firstPush (.push ai p :: ops) I = some p := by
  simp [firstPush, h]

theorem firstPush_cons_other {op : MOp} {I : Nat} (ops : List MOp)
    (h : mopTarget op ≠ I) : firstPush (op :: ops) I = firstPush ops I := by
  cases op with
  | watch d t => rfl
  | push ai p =>
    simp only [mopTarget] at h
    simp [firstPush, h]

theorem Carry_append_nil_left {fp : Option Nat} {e1 e2 : List MPair} {I : Nat}
    (h1 : pairsFor e1 I = []) (h : Carry fp e2 I) : Carry fp (e1 ++ e2) I := by
  refine ⟨?_, ?_⟩
  · rw [pairsFor_append, h1, List.nil_append]
    exact h.1
  · intro pr hpr
    rw [pairsFor_append, h1, List.nil_append] at hpr
    exact h.2 pr hpr

/-- Per-intention case analysis of a matcher run: from each slot shape at
the start of a successful run, what the run can emit for that intention
position — nothing once the slot is both-sides-gone or the watermark has
passed an absent slot, at most one pair carrying the recorded after-image
position from an observed slot, and at most one pair carrying the first
pushed after-image position otherwise. -/
theorem matcher_run_cases (I : Nat) : ∀ (ops : List MOp) (s s2 : MatcherState)
    (em : List MPair), MInv s → runMOps s ops = some (s2, em) →
    ((slotFind s.afterimages I = none → s.matchedWatermark < I →
        Carry (firstPush ops I) em I) ∧
     (slotFind s.afterimages I = none → I ≤ s.matchedWatermark →
        pairsFor em I = []) ∧
     (∀ t d, slotFind s.afterimages I = some ⟨none, some t, d⟩ →
        Carry (firstPush ops I) em I) ∧
     (∀ p d, slotFind s.afterimages I = some ⟨some p, none, d⟩ →
        Carry (some p) em I) ∧
     (∀ d, slotFind s.afterimages I = some ⟨none, none, d⟩ →
        pairsFor em I = [])) := by
  intro ops
  induction ops with
  | nil =>
    intro s s2 em hinv h
    simp only [runMOps, Option.some.injEq, Prod.mk.injEq] at h
    obtain ⟨_, he⟩ := h
    subst he
    exact ⟨fun _ _ => Carry_of_nil rfl, fun _ _ => rfl,
      fun _ _ _ => Carry_of_nil rfl, fun _ _ _ => Carry_of_nil rfl,
      fun _ _ => rfl⟩
  | cons op ops ih =>
    intro s s2 em hinv h
    obtain ⟨s1, e1, e2, h1, h2, hem⟩ := runMOps_cons h
    subst hem
    obtain ⟨hinv1, hmono1, htgt, hev⟩ := applyMOp_step hinv h1
    have IH := ih s1 s2 e2 hinv1 h2
    by_cases hT : mopTarget op = I
    · cases op with
      | watch d t =>
        simp only [mopTarget] at hT
        subst hT
        simp only [applyMOp] at h1
        refine ⟨?_, ?_, ?_, ?_, ?_⟩
        · intro hf hwm
          obtain ⟨he1, _, _, _, hslot1, _⟩ := watchM_vacant hinv hf h1
          subst he1
          exact Carry_append_nil_left rfl (IH.2.2.1 t d hslot1)
        · intro hf hwm
          obtain ⟨_, _, _, hlt, _, _⟩ := watchM_vacant hinv hf h1
          omega
        · intro t0 d0 hf
          rw [watchM_pos_none hf rfl] at h1
          cases h1
        · intro p d0 hf
          obtain ⟨he1, _, _, hslot1, _⟩ := watchM_observed hinv hf h1
          subst he1
          have h2nil : pairsFor e2 t.intentionPos = [] := by
            rcases hslot1 with hs1 | hs1
            · exact IH.2.2.2.2 d0 hs1
            · exact IH.2.1 hs1.1 hs1.2
          refine ⟨?_, ?_⟩
          · rw [pairsFor_append, h2nil, pairsFor_single_self rfl]
            simp
          · intro pr hpr
            rw [pairsFor_append, h2nil, pairsFor_single_self rfl] at hpr
            simp only [List.append_nil, List.mem_singleton] at hpr
            subst hpr
            exact ⟨p, rfl, rfl⟩
        · intro d0 hf
          rw [watchM_pos_none hf rfl] at h1
          cases h1
      | push ai p =>
        simp only [mopTarget] at hT
        subst hT
        simp only [applyMOp] at h1
        refine ⟨?_, ?_, ?_, ?_, ?_⟩
        · intro hf hwm
          obtain ⟨he1, _, _, hslot1, _⟩ := pushM_vacant hinv hwm hf h1
          subst he1
          rw [firstPush_push_self p ops rfl]
          exact Carry_append_nil_left rfl (IH.2.2.2.1 p [] hslot1)
        · intro hf hwm
          rw [pushM_dropped hwm] at h1
          simp only [Option.some.injEq, Prod.mk.injEq] at h1
          obtain ⟨hs1, he1⟩ := h1
          subst hs1
          subst he1
          rw [pairsFor_append, IH.2.1 hf hwm]
          rfl
        · intro t d0 hf
          obtain ⟨ht, he1, _, _, hslot1, _⟩ := pushM_pending hinv hf h1
          subst he1
          have h2nil : pairsFor e2 ai.intention = [] := by
            rcases hslot1 with hs1 | hs1
            · exact IH.2.2.2.2 [] hs1
            · exact IH.2.1 hs1.1 hs1.2
          have htr : ({ t with afterImage := some p } : PTreeM).intentionPos =
              ai.intention := ht
          refine ⟨?_, ?_⟩
          · rw [pairsFor_append, h2nil, pairsFor_single_self htr]
            simp
          · intro pr hpr
            rw [pairsFor_append, h2nil, pairsFor_single_self htr] at hpr
            simp only [List.append_nil, List.mem_singleton] at hpr
            subst hpr
            exact ⟨p, firstPush_push_self p ops rfl, rfl⟩
        · intro p0 d0 hf
          rw [pushM_noop hinv hf (Or.inl rfl)] at h1
          simp only [Option.some.injEq, Prod.mk.injEq] at h1
          obtain ⟨hs1, he1⟩ := h1
          subst hs1
          subst he1
          exact Carry_append_nil_left rfl (IH.2.2.2.1 p0 d0 hf)
        · intro d0 hf
          rw [pushM_noop hinv hf (Or.inr rfl)] at h1
          simp only [Option.some.injEq, Prod.mk.injEq] at h1
          obtain ⟨hs1, he1⟩ := h1
          subst hs1
          subst he1
          rw [pairsFor_append, IH.2.2.2.2 d0 hf]
          rfl
    · have he1nil : pairsFor e1 I = [] := pairsFor_nil_of_ne htgt hT
      have hfp : firstPush (op :: ops) I = firstPush ops I :=
        firstPush_cons_other ops hT
      have hevI : Evolve s s1 I := hev I (fun hIeq => hT hIeq.symm)
      refine ⟨?_, ?_, ?_, ?_, ?_⟩
      · intro hf hwm
        rw [hfp]
        rcases hevI with hsame | ⟨d', hgone, _, _⟩
        · rw [hf] at hsame
          by_cases hwm1 : s1.matchedWatermark < I
          · exact Carry_append_nil_left he1nil (IH.1 hsame hwm1)
          · refine Carry_of_nil ?_
            rw [pairsFor_append, he1nil, List.nil_append,
              IH.2.1 hsame (by omega)]
        · rw [hf] at hgone
          cases hgone
      · intro hf hwm
        rcases hevI with hsame | ⟨d', hgone, _, _⟩
        · rw [hf] at hsame
          rw [pairsFor_append, he1nil, List.nil_append]
          exact IH.2.1 hsame (Nat.le_trans hwm hmono1)
        · rw [hf] at hgone
          cases hgone
      · intro t d hf
        rw [hfp]
        rcases hevI with hsame | ⟨d', hgone, _, _⟩
        · rw [hf] at hsame
          exact Carry_append_nil_left he1nil (IH.2.2.1 t d hsame)
        · rw [hf] at hgone
          simp at hgone
      · intro p d hf
        rcases hevI with hsame | ⟨d', hgone, _, _⟩
        · rw [hf] at hsame
          exact Carry_append_nil_left he1nil (IH.2.2.2.1 p d hsame)
        · rw [hf] at hgone
          simp at hgone
      · intro d hf
        rw [pairsFor_append, he1nil, List.nil_append]
        rcases hevI with hsame | ⟨d', hgone, hnone, hwm1⟩
        · rw [hf] at hsame
          exact IH.2.2.2.2 d hsame
        · exact IH.2.1 hnone hwm1

/-! ## Helper lemmas: intention queue -/

theorem applyQOp_pos_mono {qu qu2 : IntentionQueue} {op : QOp}
    (h : applyQOp qu op = some qu2) : qu.pos ≤ qu2.pos := by
  cases op with
  | push i =>
    simp only [applyQOp, queuePush] at h
    split at h
    · cases h
      exact Nat.le_succ_of_le (by assumption)
    · cases h
  | wait =>
    simp only [applyQOp] at h
    split at h <;> (cases h; exact Nat.le_refl _)
  | stop =>
    simp only [applyQOp] at h
    cases h
    exact Nat.le_refl _

theorem runQOps_pos_mono : ∀ (ops : List QOp) (qu qu2 : IntentionQueue),
    runQOps qu ops = some qu2 → qu.pos ≤ qu2.pos
  | [], qu, qu2, h => by
    simp only [runQOps] at h
    cases h
    exact Nat.le_refl _
  | op :: ops, qu, qu2, h => by
    simp only [runQOps, Option.bind_eq_some] at h
    obtain ⟨qm, h1, h2⟩ := h
    exact Nat.le_trans (applyQOp_pos_mono h1) (runQOps_pos_mono ops qm qu2 h2)

/-! ## Helper lemmas: transaction -/

theorem runTxOps_get_only : ∀ (ops : List TxOp) (t t2 : TransactionImpl),
    (∀ op ∈ ops, op.isGet = true) →
    t.committed = false → t.tree.readOnlyFlag = true →
    runTxOps t ops = some t2 →
    t2.committed = false ∧ t2.tree.readOnlyFlag = true
  | [], t, t2, _, hc, hr, hrun => by
    simp only [runTxOps] at hrun
    cases hrun
    exact ⟨hc, hr⟩
  | op :: ops, t, t2, hops, hc, hr, hrun => by
    simp only [runTxOps, Option.bind_eq_some] at hrun
    obtain ⟨tm, h1, h2⟩ := hrun
    have hop : op.isGet = true := hops op (List.mem_cons_self op ops)
    cases op with
    | get k =>
      simp [applyTxOp, hc] at h1
      subst h1
      exact runTxOps_get_only ops
        { tree := t.tree, intentionOps := t.intentionOps ++ [IntRecOp.get k],
          committed := false } t2
        (fun o ho => hops o (List.mem_cons_of_mem _ ho)) rfl hr h2
    | put k v => simp [TxOp.isGet] at hop
    | del k => simp [TxOp.isGet] at hop

/-! ## Helper lemmas: entry cache -/

theorem entryCache_insert_len {c : EntryCache} (i : Intention)
    (h : c.intentions.length ≤ 11) :
    (c.insert i).intentions.length ≤ 11 := by
  unfold EntryCache.insert
  by_cases h10 : 10 < c.intentions.length
  · simp only [h10, if_true]
    split
    · simpa using Nat.le_trans (Nat.sub_le _ 1) h
    · simp only [List.length_append, List.length_tail, List.length_cons,
        List.length_nil]
      omega
  · simp only [h10, if_false]
    split
    · exact h
    · simp only [List.length_append, List.length_cons, List.length_nil]
      omega

theorem insertAll_len : ∀ (is : List Intention) (c : EntryCache),
    c.intentions.length ≤ 11 → (insertAll c is).intentions.length ≤ 11
  | [], _, h => h
  | i :: is, c, h => insertAll_len is (c.insert i) (entryCache_insert_len i h)

theorem minv_init : MInv initMatcher :=
  ⟨List.Pairwise.nil, by simp [initMatcher], trivial, by simp [initMatcher]⟩

theorem runGc_wm {s s3 : MatcherState} (h : runGc s = some s3) :
    s.matchedWatermark ≤ s3.matchedWatermark := by
  rw [runGc] at h
  cases hw : gcWalk s.matchedWatermark s.afterimages with
  | none =>
    rw [hw] at h
    cases h
  | some r =>
    obtain ⟨w2, l2⟩ := r
    rw [hw] at h
    simp only [Option.map_some', Option.some.injEq] at h
    subst h
    exact gcWalk_wm_mono hw

/-- Watermark monotonicity of a single matcher mutation, with no
assumption on the state. -/
theorem applyMOp_wm_mono {s s1 : MatcherState} {op : MOp} {e1 : List MPair}
    (h : applyMOp s op = some (s1, e1)) :
    s.matchedWatermark ≤ s1.matchedWatermark := by
  cases op with
  | watch d t =>
    simp only [applyMOp, watchM] at h
    split at h
    · rcases Option.map_eq_some'.mp h with ⟨s3, hgc, hpair⟩
      cases hpair
      have hres := runGc_wm hgc
      exact hres
    · split at h
      · rcases Option.map_eq_some'.mp h with ⟨s3, hgc, hpair⟩
        cases hpair
        have hres := runGc_wm hgc
        exact hres
      · cases h
  | push ai p =>
    simp only [applyMOp, pushM] at h
    split at h
    · cases h
      exact Nat.le_refl _
    · split at h
      · rcases Option.map_eq_some'.mp h with ⟨s3, hgc, hpair⟩
        cases hpair
        have hres := runGc_wm hgc
        exact hres
      · split at h
        · split at h
          · rcases Option.map_eq_some'.mp h with ⟨s3, hgc, hpair⟩
            cases hpair
            have hres := runGc_wm hgc
            exact hres
          · cases h
        · rcases Option.map_eq_some'.mp h with ⟨s3, hgc, hpair⟩
          cases hpair
          have hres := runGc_wm hgc
          exact hres

theorem runMOps_wm_mono : ∀ (ops : List MOp) (s s2 : MatcherState) (em : List MPair),
    runMOps s ops = some (s2, em) → s.matchedWatermark ≤ s2.matchedWatermark
  | [], s, s2, em, h => by
    simp only [runMOps, Option.some.injEq, Prod.mk.injEq] at h
    exact h.1 ▸ Nat.le_refl _
  | op :: ops, s, s2, em, h => by
    obtain ⟨s1, e1, e2, h1, h2, _⟩ := runMOps_cons h
    exact Nat.le_trans (applyMOp_wm_mono h1) (runMOps_wm_mono ops s1 s2 e2 h2)

/-! ## Claims C1, C6, C7, C8, C9 -/

/-- Claim C1 (code_bug): the spec's scenario 3 — log = [I@0, AI@1 with
intention_ref 0], the IO loop pushes the after-image, then watch is called
with a tree whose intention position is 0 — does not produce a matched
pair.  The push is dropped because intention_ref 0 is at or below the
initial matched_watermark_ of 0 (state unchanged, nothing emitted), and
the subsequent watch fails gc's assertion matched_watermark_ < ipos at the
slot keyed 0 (the run is none), so match() can never return the claimed
tree with after_image_position 1. -/
theorem c1_scenario3_failing :
    runMOps initMatcher (ioPushes [LEntry.intent 1, LEntry.afterImage 0]) =
      some (initMatcher, []) ∧
    runMOps initMatcher (ioPushes [LEntry.intent 1, LEntry.afterImage 0] ++
      [MOp.watch [] ⟨0, none⟩]) = none := by
  exact ⟨by decide, by decide⟩

/-- Claim C6 counterexample: inserting the 12 intentions at positions
0..11 into an empty pre-fetch cache leaves only 11 entries and position 0
is already evicted, although 12 does not exceed the claimed cap of 16. -/
theorem c6_counterexample :
    (insertAll ⟨[]⟩ ((List.range 12).map (fun p => ⟨p, 0⟩))).intentions.length = 11 ∧
    (insertAll ⟨[]⟩ ((List.range 12).map (fun p => ⟨p, 0⟩))).findIntention 0 = none ∧
    12 ≤ 16 := by
  exact ⟨by decide, by decide, by decide⟩

/-- Claim C6 (amended): the intention pre-fetch cache is bounded by the
hardcoded threshold 10 of EntryCache::Insert — an insert that finds more
than 10 entries first evicts the oldest entry in insertion order, so the
cache never holds more than 11 entries; there is no intention_cache_cap
configuration and the cap is not 16. -/
theorem c6_amended_bound :
    (∀ is : List Intention, (insertAll ⟨[]⟩ is).intentions.length ≤ 11) ∧
    (∀ (c : EntryCache) (i : Intention), 10 < c.intentions.length →
      (c.insert i).intentions.length ≤ c.intentions.length ∧
      ((c.intentions.tail.find? (fun e => e.1 = i.pos)).isSome = false →
        (c.insert i).intentions = c.intentions.tail ++ [(i.pos, i)])) := by
  constructor
  · exact fun is => insertAll_len is ⟨[]⟩ (by simp)
  · intro c i h10
    constructor
    · unfold EntryCache.insert
      simp only [h10, if_true]
      split
      · exact Nat.le_trans (List.length_tail _ ▸ Nat.sub_le _ 1) (Nat.le_refl _)
      · simp only [List.length_append, List.length_tail, List.length_cons,
          List.length_nil]
        omega
    · intro hdup
      unfold EntryCache.insert
      simp only [h10, if_true, hdup, Bool.false_eq_true, if_false]

/-- Witness for C6's amended theorem at a concrete full cache. -/
theorem c6_amended_witness :
    ((EntryCache.mk ((List.range 11).map (fun p => (p, ⟨p, 0⟩)))).insert
        ⟨99, 0⟩).intentions =
      ((List.range 11).map (fun p => (p, (⟨p, 0⟩ : Intention)))).tail ++
        [(99, ⟨99, 0⟩)] := by
  exact ((c6_amended_bound.2
    (EntryCache.mk ((List.range 11).map (fun p => (p, ⟨p, 0⟩)))) ⟨99, 0⟩
    (by decide)).2 (by decide))

/-- Claim C7: Push(i) succeeds exactly when next_position ≤ i.position
(the assertion is a contract violation otherwise); on success it sets
next_position to i.position + 1 and appends i to the deque; and over any
successful sequence of queue operations Position() never decreases. -/
theorem c7_queue_push_contract (qu : IntentionQueue) (i : Intention) :
    ((queuePush qu i).isSome ↔ qu.pos ≤ i.pos) ∧
    (∀ qu2, queuePush qu i = some qu2 →
      qu2.pos = i.pos + 1 ∧ qu2.q = qu.q ++ [i] ∧ qu.pos ≤ qu2.pos) ∧
    (∀ ops qu2, runQOps qu ops = some qu2 → qu.pos ≤ qu2.pos) := by
  refine ⟨?_, ?_, fun ops qu2 h => runQOps_pos_mono ops qu qu2 h⟩
  · unfold queuePush
    split
    · simpa using (by assumption : qu.pos ≤ i.pos)
    · simpa using (by assumption : ¬ qu.pos ≤ i.pos)
  · intro qu2 h
    unfold queuePush at h
    split at h
    · cases h
      exact ⟨rfl, rfl, Nat.le_succ_of_le (by assumption)⟩
    · cases h

/-- Witness for C7 at a concrete queue and intention. -/
theorem c7_queue_push_contract_witness :
    (IntentionQueue.mk 3 [⟨2, 5⟩] false).pos = 2 + 1 ∧
    (IntentionQueue.mk 3 [⟨2, 5⟩] false).q = [] ++ [⟨2, 5⟩] ∧
    (IntentionQueue.mk 0 [] false).pos ≤ (IntentionQueue.mk 3 [⟨2, 5⟩] false).pos := by
  have h := (c7_queue_push_contract ⟨0, [], false⟩ ⟨2, 5⟩).2.1
    ⟨3, [⟨2, 5⟩], false⟩ (by decide)
  have h2 := (c7_queue_push_contract ⟨0, [], false⟩ ⟨2, 5⟩).2.2
    [QOp.push ⟨2, 5⟩] ⟨3, [⟨2, 5⟩], false⟩ (by decide)
  exact ⟨h.1, h.2.1, h2⟩

/-- Claim C8: Commit() on a transaction that has seen no Put or Delete
(its tentative tree is still read-only) sets the committed flag, returns
true, and does not invoke the database commit path (so nothing is
appended to the log), whatever the commit engine would have answered. -/
theorem c8_readonly_commit (ops : List TxOp) (t : TransactionImpl) (dbResult : Bool)
    (hops : ∀ op ∈ ops, op.isGet = true)
    (hrun : runTxOps initTx ops = some t) :
    txCommit dbResult t = some ({ t with committed := true }, ⟨true, false⟩) := by
  obtain ⟨hc, hr⟩ := runTxOps_get_only ops initTx t hops rfl rfl hrun
  simp [txCommit, hc, hr]

/-- Witness for C8: a transaction that only performed Get("k"). -/
theorem c8_readonly_commit_witness :
    txCommit false ⟨⟨true⟩, [.get "k"], false⟩ =
      some (⟨⟨true⟩, [.get "k"], true⟩, ⟨true, false⟩) := by
  exact c8_readonly_commit [.get "k"] ⟨⟨true⟩, [.get "k"], false⟩ false
    (by intro op hop; simp at hop; subst hop; rfl) rfl

/-- Claim C3: over every interleaving of watch and push calls that runs
without a contract violation, the matcher emits at most one (delta, tree)
pair whose tree has intention position I; once the pair for I has been
produced no later push or watch for I produces another (the emission
history of the whole run holds at most one pair for I). -/
theorem c3_matcher_uniqueness (ops : List MOp) (s2 : MatcherState)
    (em : List MPair)
    (h : runMOps initMatcher ops = some (s2, em)) :
    ∀ I, (pairsFor em I).length ≤ 1 := by
  intro I
  have hm := matcher_run_cases I ops initMatcher s2 em minv_init h
  by_cases hI : 0 < I
  · exact (hm.1 rfl hI).1
  · have h0 : I = 0 := by omega
    subst h0
    rw [hm.2.1 rfl (Nat.le_refl 0)]
    simp

/-- Witness for C3: a push then the matching watch emit exactly one pair
for intention 2. -/
theorem c3_matcher_uniqueness_witness :
    (pairsFor [([], PTreeM.mk 2 (some 4))] 2).length ≤ 1 := by
  exact c3_matcher_uniqueness [MOp.push ⟨2⟩ 4, MOp.watch [] ⟨2, none⟩]
    ⟨[], [([], ⟨2, some 4⟩)], 2, false⟩ [([], ⟨2, some 4⟩)] (by decide) 2

/-- Claim C4: matched_watermark never decreases across any successful
sequence of watch and push calls, and a push whose after-image references
an intention position the watermark has passed is dropped: the state is
returned unchanged (no slot created) and nothing is emitted. -/
theorem c4_watermark (s : MatcherState) :
    (∀ (ops : List MOp) (s2 : MatcherState) (em : List MPair),
      runMOps s ops = some (s2, em) →
      s.matchedWatermark ≤ s2.matchedWatermark) ∧
    (∀ (ai : AIData) (p : Nat), ai.intention ≤ s.matchedWatermark →
      pushM s ai p = some (s, [])) :=
  ⟨fun ops s2 em h => runMOps_wm_mono ops s s2 em h,
   fun _ _ h => pushM_dropped h⟩

/-- Witness for C4 at a state with watermark 5: a fresh push keeps the
watermark at 5 and a push referencing intention 3 is dropped. -/
theorem c4_watermark_witness :
    (MatcherState.mk [] [] 5 false).matchedWatermark ≤
      (MatcherState.mk [(7, ⟨some 8, none, []⟩)] [] 5 false).matchedWatermark ∧
    pushM ⟨[], [], 5, false⟩ ⟨3⟩ 9 = some (⟨[], [], 5, false⟩, []) := by
  exact ⟨(c4_watermark ⟨[], [], 5, false⟩).1 [.push ⟨7⟩ 8]
      ⟨[(7, ⟨some 8, none, []⟩)], [], 5, false⟩ [] (by decide),
    (c4_watermark ⟨[], [], 5, false⟩).2 ⟨3⟩ 9 (by decide)⟩

/-- Claim C5: when several after-image pushes reference the same intention
position, any matched pair for that intention carries the position of the
earliest push; and a later push arriving at a slot that already observed
an after-image position is ignored, changing nothing. -/
theorem c5_first_wins :
    (∀ (ops : List MOp) (s2 : MatcherState) (em : List MPair) (I p1 : Nat),
      runMOps initMatcher ops = some (s2, em) →
      firstPush ops I = some p1 →
      ∀ pr ∈ pairsFor em I, pr.2.afterImage = some p1) ∧
    (∀ (ops : List MOp) (s2 : MatcherState) (em : List MPair),
      runMOps initMatcher ops = some (s2, em) →
      ∀ (ai : AIData) (p p0 : Nat) (d : Delta),
        slotFind s2.afterimages ai.intention = some ⟨some p0, none, d⟩ →
        pushM s2 ai p = some (s2, [])) := by
  constructor
  · intro ops s2 em I p1 hrun hfp pr hpr
    have hm := matcher_run_cases I ops initMatcher s2 em minv_init hrun
    by_cases hI : 0 < I
    · obtain ⟨p2, hp2, hai⟩ := (hm.1 rfl hI).2 pr hpr
      rw [hfp] at hp2
      cases hp2
      exact hai
    · have h0 : I = 0 := by omega
      subst h0
      rw [hm.2.1 rfl (Nat.le_refl 0)] at hpr
      cases hpr
  · intro ops s2 em hrun ai p p0 d hf
    have hinv2 := (runMOps_inv ops initMatcher s2 em minv_init hrun).1
    exact pushM_noop hinv2 hf (Or.inl rfl)

/-- Witness for C5: pushes at positions 5 then 9 for intention 3; the pair
carries 5 and the duplicate push leaves the observed slot unchanged. -/
theorem c5_first_wins_witness :
    (PTreeM.mk 3 (some 5)).afterImage = some 5 ∧
    pushM ⟨[(3, ⟨some 5, none, []⟩)], [], 0, false⟩ ⟨3⟩ 9 =
      some (⟨[(3, ⟨some 5, none, []⟩)], [], 0, false⟩, []) := by
  refine ⟨?_, ?_⟩
  · exact c5_first_wins.1 [.push ⟨3⟩ 5, .push ⟨3⟩ 9, .watch [] ⟨3, none⟩]
      ⟨[], [([], ⟨3, some 5⟩)], 3, false⟩ [([], ⟨3, some 5⟩)] 3 5
      (by decide) (by decide) ([], ⟨3, some 5⟩) (by decide)
  · exact c5_first_wins.2 [.push ⟨3⟩ 5]
      ⟨[(3, ⟨some 5, none, []⟩)], [], 0, false⟩ [] (by decide) ⟨3⟩ 9 5 []
      (by decide)

/-- Claim C9: after shutdown() the next match() returns the empty pair and
leaves the state (and in particular any still-queued matched pairs)
untouched, so every subsequent match() call also returns the empty pair:
shutdown takes priority over draining the matched deque. -/
theorem c9_shutdown_priority (s : MatcherState) :
    matchM (shutdownM s) = (MatchResult.emptyPair, shutdownM s) ∧
    (shutdownM s).matched = s.matched := by
  exact ⟨by simp [matchM, shutdownM], rfl⟩

/-! ## Claim C10 -/

theorem ecFind_append_self : ∀ (c : ECache) (p : Nat) (e : CEntry),
    ecFind c p = none → ecFind (c ++ [(p, e)]) p = some e
  | [], p, e, _ => by simp [ecFind]
  | (k, v) :: rest, p, e, h => by
    simp only [ecFind] at h ⊢
    split at h
    · cases h
    · rw [if_neg (by assumption)]
      exact ecFind_append_self rest p e h

theorem ecFind_append_other : ∀ (c : ECache) (p q : Nat) (e : CEntry), q ≠ p →
    ecFind (c ++ [(p, e)]) q = ecFind c q
  | [], p, q, e, h => by
    simp only [ecFind, List.nil_append]
    rw [if_neg (fun hh => h hh.symm)]
  | (k, v) :: rest, p, q, e, h => by
    simp only [ecFind, List.cons_append]
    split
    · rfl
    · exact ecFind_append_other rest p q e h

theorem ecEmplace_of_none {c : ECache} {p : Nat} {e : CEntry}
    (h : ecFind c p = none) : ecEmplace c p e = c ++ [(p, e)] := by
  simp [ecEmplace, h]

theorem ecEmplace_of_some {c : ECache} {p : Nat} {e : CEntry} {v : CEntry}
    (h : ecFind c p = some v) : ecEmplace c p e = c := by
  simp [ecEmplace, h]

theorem ecEmplace_find_other {c : ECache} {p q : Nat} {e : CEntry} (h : q ≠ p) :
    ecFind (ecEmplace c p e) q = ecFind c q := by
  cases hf : ecFind c p with
  | none =>
    rw [ecEmplace_of_none hf]
    exact ecFind_append_other c p q e h
  | some v => rw [ecEmplace_of_some hf]

theorem collectHits_spec : ∀ (addrs : List Nat) (c : ECache)
    (hits : List Intention) (missing : List Nat),
    collectHits c addrs = some (hits, missing) →
    hits = addrs.filterMap (cacheHit c) ∧
    missing = addrs.filter (fun p => (ecFind c p).isNone)
  | [], c, hits, missing, h => by
    simp only [collectHits, Option.some.injEq, Prod.mk.injEq] at h
    simp [← h.1, ← h.2]
  | p :: rest, c, hits, missing, h => by
    simp only [collectHits] at h
    cases hc : ecFind c p with
    | none =>
      rw [hc] at h
      rcases Option.map_eq_some'.mp h with ⟨⟨hs, ms⟩, hrec, heq⟩
      simp only [Prod.mk.injEq] at heq
      obtain ⟨h1, h2⟩ := collectHits_spec rest c hs ms hrec
      rw [← heq.1, ← heq.2, h1, h2]
      constructor
      · simp [List.filterMap_cons, cacheHit, hc]
      · simp [List.filter_cons, hc]
    | some ce =>
      cases ce with
      | intent i =>
        rw [hc] at h
        rcases Option.map_eq_some'.mp h with ⟨⟨hs, ms⟩, hrec, heq⟩
        simp only [Prod.mk.injEq] at heq
        obtain ⟨h1, h2⟩ := collectHits_spec rest c hs ms hrec
        rw [← heq.1, ← heq.2, h1, h2]
        constructor
        · simp [List.filterMap_cons, cacheHit, hc]
        · simp [List.filter_cons, hc]
      | afterImage r =>
        rw [hc] at h
        cases h

theorem readMissing_spec : ∀ (ms : List Nat) (log : Nat → Option LEntry)
    (c : ECache) (out : List Intention) (cf : ECache),
    (∀ p ∈ ms, ecFind c p = none ∨
      (∃ tok, log p = some (.intent tok) ∧
        ecFind c p = some (.intent ⟨p, tok⟩))) →
    readMissing log c ms = some (out, cf) →
    out = ms.filterMap (logIntent log)
  | [], log, c, out, cf, _, h => by
    simp only [readMissing, Option.some.injEq, Prod.mk.injEq] at h
    simp [← h.1]
  | p :: rest, log, c, out, cf, hpre, h => by
    simp only [readMissing] at h
    cases hlog : log p with
    | none =>
      rw [hlog] at h
      cases h
    | some le =>
      cases le with
      | afterImage r =>
        rw [hlog] at h
        cases h
      | intent tok =>
        simp only [hlog] at h
        have hfind : ecFind (ecEmplace c p (.intent ⟨p, tok⟩)) p =
            some (.intent ⟨p, tok⟩) := by
          rcases hpre p (List.mem_cons_self _ _) with hn | ⟨tok2, hl2, hf2⟩
          · rw [ecEmplace_of_none hn]
            exact ecFind_append_self c p _ hn
          · rw [hlog] at hl2
            cases hl2
            rw [ecEmplace_of_some hf2]
            exact hf2
        simp only [hfind] at h
        rcases Option.map_eq_some'.mp h with ⟨⟨os, cs⟩, hrec, heq⟩
        simp only [Prod.mk.injEq] at heq
        have hpre2 : ∀ q ∈ rest, ecFind (ecEmplace c p (.intent ⟨p, tok⟩)) q = none ∨
            (∃ tok2, log q = some (.intent tok2) ∧
              ecFind (ecEmplace c p (.intent ⟨p, tok⟩)) q =
                some (.intent ⟨q, tok2⟩)) := by
          intro q hq
          by_cases hqp : q = p
          · subst hqp
            exact Or.inr ⟨tok, hlog, hfind⟩
          · rw [ecEmplace_find_other hqp]
            exact hpre q (List.mem_cons_of_mem _ hq)
        have hrest := readMissing_spec rest log _ os cs hpre2 hrec
        rw [← heq.1, hrest]
        simp [List.filterMap_cons, logIntent, hlog]

/-- Claim C10: ReadIntentions on a non-empty request returns the cache
hits in request order followed by the missed positions read from the log
in request order (so the output order need not match the request order);
an empty request list violates the assertion. -/
theorem c10_read_intentions :
    (∀ (log : Nat → Option LEntry) (c : ECache),
      readIntentions log c [] = none) ∧
    (∀ (log : Nat → Option LEntry) (c : ECache) (addrs : List Nat)
        (out : List Intention) (c2 : ECache),
      readIntentions log c addrs = some (out, c2) →
      out = addrs.filterMap (cacheHit c) ++
        (addrs.filter (fun p => (ecFind c p).isNone)).filterMap (logIntent log)) := by
  constructor
  · intro log c
    rfl
  · intro log c addrs out c2 h
    rw [readIntentions] at h
    split at h
    · cases h
    · rcases Option.bind_eq_some.mp h with ⟨⟨hits, missing⟩, hch, hmap⟩
      rcases Option.map_eq_some'.mp hmap with ⟨⟨ms, cf⟩, hrm, heq⟩
      obtain ⟨hh, hm⟩ := collectHits_spec addrs c hits missing hch
      have hpre : ∀ p ∈ missing, ecFind c p = none ∨
          (∃ tok, log p = some (.intent tok) ∧
            ecFind c p = some (.intent ⟨p, tok⟩)) := by
        intro p hp
        rw [hm] at hp
        have := (List.mem_filter.mp hp).2
        exact Or.inl (by simpa [Option.isNone_iff_eq_none] using this)
      have hout := readMissing_spec missing log c ms cf hpre hrm
      simp only [Prod.mk.injEq] at heq
      rw [← heq.1, hh, hout, hm]

/-- Witness for C10: cache holds an intention at 1, the log one at 0;
requesting [1, 0] returns the hit for 1 then the read for 0. -/
theorem c10_read_intentions_witness :
    ([⟨1, 9⟩, ⟨0, 5⟩] : List Intention) =
      ([1, 0].filterMap (cacheHit [(1, CEntry.intent ⟨1, 9⟩)])) ++
      (([1, 0].filter
          (fun p => (ecFind [(1, CEntry.intent ⟨1, 9⟩)] p).isNone)).filterMap
        (logIntent (fun p => if p = 0 then some (.intent 5) else none))) := by
  exact c10_read_intentions.2
    (fun p => if p = 0 then some (.intent 5) else none)
    [(1, CEntry.intent ⟨1, 9⟩)] [1, 0] [⟨1, 9⟩, ⟨0, 5⟩]
    [(1, CEntry.intent ⟨1, 9⟩), (0, CEntry.intent ⟨0, 5⟩)] rfl

/-! ## Claim C2: intention-loop lemmas -/

theorem intentPositions_of_le {log : Nat → Option LEntry} {a b : Nat}
    (h : b ≤ a) : intentPositions log a b = [] := by
  rw [intentPositions, Nat.sub_eq_zero_of_le h]
  rfl

theorem intentPositions_succ (log : Nat → Option LEntry) {a c : Nat} (h : a ≤ c) :
    intentPositions log a (c + 1) =
      intentPositions log a c ++
        (if isIntent (log c) = true then [c] else []) := by
  rw [intentPositions, intentPositions]
  have h1 : c + 1 - a = (c - a) + 1 := by omega
  rw [h1, List.range'_concat, List.filter_append]
  have h2 : a + 1 * (c - a) = c := by omega
  rw [h2]
  congr 1
  by_cases hc : isIntent (log c) = true
  · simp [hc]
  · simp [hc]

theorem mem_intentPositions {log : Nat → Option LEntry} {a b p : Nat} :
    p ∈ intentPositions log a b ↔ a ≤ p ∧ p < b ∧ isIntent (log p) = true := by
  rw [intentPositions, List.mem_filter, List.mem_range'_1]
  constructor
  · rintro ⟨⟨h1, h2⟩, h3⟩
    exact ⟨h1, by omega, h3⟩
  · rintro ⟨h1, h2, h3⟩
    exact ⟨⟨h1, by omega⟩, h3⟩

theorem intentPositions_sorted (log : Nat → Option LEntry) (a b : Nat) :
    List.Pairwise (· < ·) (intentPositions log a b) := by
  refine List.Pairwise.filter _ ?_
  have h := List.pairwise_lt_range' a (b - a)
  simpa using h

theorem getLast?_mem_list {l : List Nat} {a : Nat} (h : l.getLast? = some a) :
    a ∈ l := by
  obtain ⟨hne, heq⟩ := List.mem_getLast?_eq_getLast (show a ∈ l.getLast? from h)
  rw [heq]
  exact List.getLast_mem hne

theorem nextWanted_ge (log : Nat → Option LEntry) (p0 c : Nat) :
    p0 ≤ nextWanted log p0 c := by
  cases hl : (intentPositions log p0 c).getLast? with
  | none => simp [nextWanted, hl]
  | some q =>
    have hq := mem_intentPositions.mp (getLast?_mem_list hl)
    simp only [nextWanted, hl]
    omega

theorem nextWanted_le {log : Nat → Option LEntry} {p0 c : Nat} (h : p0 ≤ c) :
    nextWanted log p0 c ≤ c := by
  cases hl : (intentPositions log p0 c).getLast? with
  | none => simpa [nextWanted, hl] using h
  | some q =>
    have hq := mem_intentPositions.mp (getLast?_mem_list hl)
    simp only [nextWanted, hl]
    omega

theorem nextWanted_succ_intent {log : Nat → Option LEntry} {p0 c : Nat}
    (h : p0 ≤ c) (hi : isIntent (log c) = true) :
    nextWanted log p0 (c + 1) = c + 1 := by
  rw [nextWanted, intentPositions_succ log h, hi]
  simp [List.getLast?_concat]

theorem nextWanted_succ_skip {log : Nat → Option LEntry} {p0 c : Nat}
    (h2 : isIntent (log c) = false ∨ c < p0) :
    nextWanted log p0 (c + 1) = nextWanted log p0 c := by
  rcases h2 with h2 | h2
  · by_cases h : p0 ≤ c
    · rw [nextWanted, nextWanted, intentPositions_succ log h, h2]
      simp
    · rw [nextWanted, nextWanted, intentPositions_of_le (by omega),
        intentPositions_of_le (by omega)]
  · rw [nextWanted, nextWanted, intentPositions_of_le (by omega),
      intentPositions_of_le (by omega)]

theorem intentAt_pos (log : Nat → Option LEntry) (p : Nat) :
    (intentAt log p).pos = p := by
  cases hl : log p with
  | none => simp [intentAt, hl]
  | some e => cases e <;> simp [intentAt, hl]

theorem map_pos_intentAt (log : Nat → Option LEntry) : ∀ (l : List Nat),
    (l.map (intentAt log)).map Intention.pos = l
  | [] => rfl
  | p :: rest => by
    simp only [List.map_cons, List.cons.injEq]
    exact ⟨intentAt_pos log p, map_pos_intentAt log rest⟩

/-- One intention push updates the delivery invariant of every queue. -/
theorem qInv_step_intent {log : Nat → Option LEntry} {p0 c : Nat}
    {qu : IntentionQueue} (hq : QInv log p0 c qu)
    (hi : isIntent (log c) = true) :
    QInv log p0 (c + 1)
      (if qu.pos ≤ c then
        { qu with pos := c + 1, q := qu.q ++ [intentAt log c] }
       else qu) := by
  obtain ⟨hq1, hq2⟩ := hq
  by_cases hp : p0 ≤ c
  · have hle : qu.pos ≤ c := by
      rw [hq2]
      exact nextWanted_le hp
    rw [if_pos hle]
    constructor
    · simp only
      rw [hq1, intentPositions_succ log hp, hi]
      simp
    · simp only
      rw [nextWanted_succ_intent hp hi]
  · have hgt : ¬ qu.pos ≤ c := by
      rw [hq2]
      have := nextWanted_ge log p0 c
      omega
    rw [if_neg hgt]
    constructor
    · rw [hq1, intentPositions_of_le (by omega), intentPositions_of_le (by omega)]
    · rw [hq2, nextWanted_succ_skip (Or.inr (by omega))]

/-- Skipping a non-intention position preserves the delivery invariant. -/
theorem qInv_step_skip {log : Nat → Option LEntry} {p0 c : Nat}
    {qu : IntentionQueue} (hq : QInv log p0 c qu)
    (hi : isIntent (log c) = false) : QInv log p0 (c + 1) qu := by
  obtain ⟨hq1, hq2⟩ := hq
  constructor
  · rw [hq1]
    by_cases hp : p0 ≤ c
    · rw [intentPositions_succ log hp, hi]
      simp
    · rw [intentPositions_of_le (by omega), intentPositions_of_le (by omega)]
  · rw [hq2, nextWanted_succ_skip (Or.inl hi)]

theorem pushEligible_map : ∀ (qs : List IntentionQueue) (i : Intention),
    pushEligible qs i.pos i = some (qs.map (fun qu =>
      if qu.pos ≤ i.pos then { qu with pos := i.pos + 1, q := qu.q ++ [i] }
      else qu))
  | [], _ => rfl
  | qu :: rest, i => by
    simp only [pushEligible, List.map_cons]
    by_cases h : qu.pos ≤ i.pos
    · rw [if_pos h, if_pos h, queuePush, if_pos h, pushEligible_map rest i]
      rfl
    · rw [if_neg h, if_neg h, pushEligible_map rest i]
      rfl

theorem pushEligible_map2 {qs : List IntentionQueue} {c : Nat} {i : Intention}
    (h : i.pos = c) :
    pushEligible qs c i = some (qs.map (fun qu =>
      if qu.pos ≤ c then { qu with pos := c + 1, q := qu.q ++ [i] } else qu)) := by
  subst h
  exact pushEligible_map qs i

theorem foldlMinQ_le : ∀ (l : List IntentionQueue) (a : Nat),
    l.foldl (fun m q2 => min m q2.pos) a ≤ a ∧
    ∀ qu ∈ l, l.foldl (fun m q2 => min m q2.pos) a ≤ qu.pos
  | [], a => ⟨Nat.le_refl _, by simp⟩
  | qu :: rest, a => by
    refine ⟨Nat.le_trans (foldlMinQ_le rest (min a qu.pos)).1
      (Nat.min_le_left _ _), ?_⟩
    intro q2 hq2
    rcases List.mem_cons.mp hq2 with h | h
    · subst h
      exact Nat.le_trans (foldlMinQ_le rest (min a q2.pos)).1
        (Nat.min_le_right _ _)
    · exact (foldlMinQ_le rest (min a qu.pos)).2 q2 h

theorem le_foldlMinQ : ∀ (l : List IntentionQueue) (a m : Nat),
    m ≤ a → (∀ qu ∈ l, m ≤ qu.pos) →
    m ≤ l.foldl (fun m2 q2 => min m2 q2.pos) a
  | [], _, _, ha, _ => ha
  | qu :: rest, a, m, ha, hl =>
    le_foldlMinQ rest (min a qu.pos) m
      (Nat.le_min.mpr ⟨ha, hl qu (List.mem_cons_self _ _)⟩)
      (fun q2 h => hl q2 (List.mem_cons_of_mem _ h))

theorem minQPos_le {qs : List IntentionQueue} {qu : IntentionQueue}
    (h : qu ∈ qs) : minQPos qs ≤ qu.pos := by
  cases qs with
  | nil => cases h
  | cons q0 rest =>
    rcases List.mem_cons.mp h with h | h
    · rw [h, minQPos]
      exact (foldlMinQ_le rest q0.pos).1
    · exact (foldlMinQ_le rest q0.pos).2 qu h

theorem le_minQPos {qs : List IntentionQueue} {m : Nat} (hne : qs ≠ [])
    (h : ∀ qu ∈ qs, m ≤ qu.pos) : m ≤ minQPos qs := by
  cases qs with
  | nil => exact absurd rfl hne
  | cons q0 rest =>
    exact le_foldlMinQ rest q0.pos m (h q0 (List.mem_cons_self _ _))
      (fun qu hq => h qu (List.mem_cons_of_mem _ hq))

theorem minQPos_map_mono {qs : List IntentionQueue}
    {f : IntentionQueue → IntentionQueue} (h : ∀ qu, qu.pos ≤ (f qu).pos) :
    minQPos qs ≤ minQPos (qs.map f) := by
  cases qs with
  | nil => exact Nat.le_refl _
  | cons q0 rest =>
    refine le_minQPos (by simp) ?_
    intro qu2 hq2
    rcases List.mem_map.mp hq2 with ⟨qu, hqu, hfq⟩
    rw [← hfq]
    exact Nat.le_trans (minQPos_le hqu) (h qu)

theorem foldlMinN_le : ∀ (l : List Nat) (a : Nat),
    l.foldl min a ≤ a ∧ ∀ x ∈ l, l.foldl min a ≤ x
  | [], a => ⟨Nat.le_refl _, by simp⟩
  | x :: rest, a => by
    refine ⟨Nat.le_trans (foldlMinN_le rest (min a x)).1 (Nat.min_le_left _ _), ?_⟩
    intro y hy
    rcases List.mem_cons.mp hy with h | h
    · subst h
      exact Nat.le_trans (foldlMinN_le rest (min a y)).1 (Nat.min_le_right _ _)
    · exact (foldlMinN_le rest (min a x)).2 y h

theorem minStart_le {starts : List Nat} {p0 : Nat} (h : p0 ∈ starts) :
    minStart starts ≤ p0 := by
  cases starts with
  | nil => cases h
  | cons q0 rest =>
    rcases List.mem_cons.mp h with h2 | h2
    · rw [h2, minStart]
      exact (foldlMinN_le rest q0).1
    · exact (foldlMinN_le rest q0).2 p0 h2

theorem forall2_map_right {R S : Nat → IntentionQueue → Prop}
    {f : IntentionQueue → IntentionQueue} :
    ∀ {l1 : List Nat} {l2 : List IntentionQueue}, List.Forall₂ R l1 l2 →
      (∀ p0 qu, R p0 qu → S p0 (f qu)) → List.Forall₂ S l1 (l2.map f) := by
  intro l1 l2 h hi
  induction h with
  | nil => exact List.Forall₂.nil
  | cons hr _ ih => exact List.Forall₂.cons (hi _ _ hr) ih

theorem forall2_getD {R : Nat → IntentionQueue → Prop} :
    ∀ {l1 : List Nat} {l2 : List IntentionQueue}, List.Forall₂ R l1 l2 →
      ∀ k, k < l1.length → R (l1.getD k 0) (l2.getD k ⟨0, [], false⟩) := by
  intro l1 l2 h
  induction h with
  | nil =>
    intro k hk
    simp at hk
  | cons hr _ ih =>
    intro k hk
    cases k with
    | zero => simpa using hr
    | succ k2 =>
      simp only [List.getD_cons_succ]
      exact ih k2 (by simpa using hk)

theorem forall2_init {log : Nat → Option LEntry} {m : Nat} :
    ∀ (starts : List Nat), (∀ p0 ∈ starts, m ≤ p0) →
    List.Forall₂ (fun p0 qu => QInv log p0 m qu) starts
      (starts.map (fun p => ⟨p, [], false⟩))
  | [], _ => List.Forall₂.nil
  | p0 :: rest, h => by
    refine List.Forall₂.cons ?_
      (forall2_init rest (fun q hq => h q (List.mem_cons_of_mem _ hq)))
    have hle : m ≤ p0 := h p0 (List.mem_cons_self _ _)
    constructor
    · simp only
      rw [intentPositions_of_le hle]
      rfl
    · simp only
      simp [nextWanted, intentPositions_of_le hle]

/-- One pass of the loop body preserves the per-queue delivery invariant
and never lowers any queue position. -/
theorem readerProcess_inv {log : Nat → Option LEntry}
    {cache : Nat → Option Intention} {starts : List Nat} {s s2 : ReaderState}
    (hcache : ∀ p i, cache p = some i →
      i.pos = p ∧ log p = some (.intent i.token))
    (hf2 : List.Forall₂ (fun p0 qu => QInv log p0 s.cursor qu) starts s.queues)
    (h : readerProcess log cache s = some s2) :
    List.Forall₂ (fun p0 qu => QInv log p0 s2.cursor qu) starts s2.queues ∧
    minQPos s.queues ≤ minQPos s2.queues ∧ s2.lastMin = s.lastMin := by
  cases hc : cache s.cursor with
  | some i =>
    obtain ⟨hip, hlog⟩ := hcache _ _ hc
    have hii : isIntent (log s.cursor) = true := by
      rw [hlog]
      rfl
    have hieq : intentAt log s.cursor = i := by
      obtain ⟨ip, itok⟩ := i
      simp only at hip hlog
      subst hip
      simp [intentAt, hlog]
    simp only [readerProcess, hc] at h
    rw [pushEligible_map2 hip] at h
    simp only [Option.map_some', Option.some.injEq] at h
    subst h
    refine ⟨?_, ?_, rfl⟩
    · refine forall2_map_right hf2 ?_
      intro p0 qu hq
      have hres := qInv_step_intent hq hii
      rw [hieq] at hres
      exact hres
    · refine minQPos_map_mono ?_
      intro qu
      by_cases hle : qu.pos ≤ s.cursor
      · rw [if_pos hle]
        simp only
        omega
      · rw [if_neg hle]
  | none =>
    cases hl : log s.cursor with
    | none =>
      simp only [readerProcess, hc, hl, Option.some.injEq] at h
      subst h
      exact ⟨hf2, Nat.le_refl _, rfl⟩
    | some e =>
      cases e with
      | intent tok =>
        have hii : isIntent (log s.cursor) = true := by
          rw [hl]
          rfl
        have hieq : intentAt log s.cursor = ⟨s.cursor, tok⟩ := by
          simp [intentAt, hl]
        simp only [readerProcess, hc, hl] at h
        rw [pushEligible_map2 (rfl : (⟨s.cursor, tok⟩ : Intention).pos = s.cursor)]
          at h
        simp only [Option.map_some', Option.some.injEq] at h
        subst h
        refine ⟨?_, ?_, rfl⟩
        · refine forall2_map_right hf2 ?_
          intro p0 qu hq
          have hres := qInv_step_intent hq hii
          rw [hieq] at hres
          exact hres
        · refine minQPos_map_mono ?_
          intro qu
          by_cases hle : qu.pos ≤ s.cursor
          · rw [if_pos hle]
            simp only
            omega
          · rw [if_neg hle]
      | afterImage r =>
        have hii : isIntent (log s.cursor) = false := by
          rw [hl]
          rfl
        simp only [readerProcess, hc, hl, Option.some.injEq] at h
        subst h
        refine ⟨?_, Nat.le_refl _, rfl⟩
        exact hf2.imp (fun p0 qu hq => qInv_step_skip hq hii)

/-- One iteration of the intention loop preserves the loop invariant. -/
theorem readerStep_inv {log : Nat → Option LEntry}
    {cache : Nat → Option Intention} {starts : List Nat} {s s2 : ReaderState}
    (hne : starts ≠ [])
    (hcache : ∀ p i, cache p = some i →
      i.pos = p ∧ log p = some (.intent i.token))
    (hinv : RInv log starts s)
    (h : readerStep log cache s = some s2) : RInv log starts s2 := by
  have hlen : s.queues.length = starts.length := by
    rcases hinv with ⟨_, hq⟩ | ⟨l, _, _, hf2⟩
    · rw [hq, List.length_map]
    · exact hf2.length_eq.symm
  have hqne : ¬ s.queues.isEmpty = true := by
    intro hq0
    rw [List.isEmpty_iff] at hq0
    rw [hq0] at hlen
    exact hne (List.length_eq_zero.mp hlen.symm)
  rcases hinv with ⟨hlm, hq⟩ | ⟨l, hlm, hlle, hf2⟩
  · simp only [readerStep, hlm] at h
    rw [if_neg hqne] at h
    have hminle : ∀ p0 ∈ starts, minQPos s.queues ≤ p0 := by
      intro p0 hp0
      have hmem : (⟨p0, [], false⟩ : IntentionQueue) ∈ s.queues := by
        rw [hq]
        exact List.mem_map_of_mem _ hp0
      exact minQPos_le hmem
    have hf0 : List.Forall₂
        (fun p0 qu => QInv log p0 (minQPos s.queues) qu) starts s.queues := by
      rw [hq] at hminle ⊢
      exact forall2_init starts hminle
    obtain ⟨hf2', hmin2, hlm2⟩ := readerProcess_inv hcache
      (s := { s with cursor := minQPos s.queues,
                     lastMin := some (minQPos s.queues) }) hf0 h
    right
    refine ⟨minQPos s.queues, by rw [hlm2], ?_, hf2'⟩
    exact hmin2
  · simp only [readerStep, hlm] at h
    rw [if_neg hqne, if_neg (by omega : ¬ minQPos s.queues < l)] at h
    obtain ⟨hf2', hmin2, hlm2⟩ := readerProcess_inv hcache
      (s := { s with lastMin := some (minQPos s.queues) }) hf2 h
    right
    exact ⟨minQPos s.queues, by rw [hlm2], hmin2, hf2'⟩

theorem readerRun_inv {log : Nat → Option LEntry}
    {cache : Nat → Option Intention} {starts : List Nat} :
    ∀ (n : Nat) (s s2 : ReaderState), starts ≠ [] →
    (∀ p i, cache p = some i → i.pos = p ∧ log p = some (.intent i.token)) →
    RInv log starts s → readerRun log cache s n = some s2 →
    RInv log starts s2
  | 0, s, s2, _, _, hinv, h => by
    simp only [readerRun, Option.some.injEq] at h
    subst h
    exact hinv
  | n + 1, s, s2, hne, hc, hinv, h => by
    simp only [readerRun, Option.bind_eq_some] at h
    obtain ⟨sm, h1, h2⟩ := h
    exact readerRun_inv n sm s2 hne hc (readerStep_inv hne hc hinv h1) h2

/-- Claim C2: for every intention queue registered at start position p0
before the intention loop runs, after any number of successful loop
iterations the positions delivered to it are exactly the intention
positions of the covered log prefix from p0 on: strictly increasing, all
at or above p0 and holding intention entries, and omitting no such
position — no gaps, no duplicates. -/
theorem c2_intention_ordering (log : Nat → Option LEntry)
    (cache : Nat → Option Intention) (starts : List Nat) (n : Nat)
    (s2 : ReaderState)
    (hne : starts ≠ [])
    (hcache : ∀ p i, cache p = some i →
      i.pos = p ∧ log p = some (.intent i.token))
    (hrun : readerRun log cache (initReader starts) n = some s2) :
    ∀ k, k < starts.length →
      ((s2.queues.getD k ⟨0, [], false⟩).q.map Intention.pos =
        intentPositions log (starts.getD k 0) (coverage starts s2)) ∧
      List.Pairwise (· < ·)
        ((s2.queues.getD k ⟨0, [], false⟩).q.map Intention.pos) ∧
      (∀ p ∈ (s2.queues.getD k ⟨0, [], false⟩).q.map Intention.pos,
        starts.getD k 0 ≤ p ∧ isIntent (log p) = true) ∧
      (∀ p, starts.getD k 0 ≤ p → p < coverage starts s2 →
        isIntent (log p) = true →
        p ∈ (s2.queues.getD k ⟨0, [], false⟩).q.map Intention.pos) := by
  intro k hk
  have hinv0 : RInv log starts (initReader starts) := Or.inl ⟨rfl, rfl⟩
  have hinv2 := readerRun_inv n (initReader starts) s2 hne hcache hinv0 hrun
  have hchar : (s2.queues.getD k ⟨0, [], false⟩).q.map Intention.pos =
      intentPositions log (starts.getD k 0) (coverage starts s2) := by
    rcases hinv2 with ⟨hlm, hq⟩ | ⟨l, hlm, _, hf2⟩
    · simp only [coverage, hlm]
      cases hg : starts.get? k with
      | none =>
        have := List.get?_eq_none.mp hg
        omega
      | some p0 =>
        have hp0 : starts.getD k 0 = p0 := by
          rw [List.getD_eq_getD_get?, hg]
          rfl
        have hqk : s2.queues.getD k ⟨0, [], false⟩ =
            (⟨p0, [], false⟩ : IntentionQueue) := by
          rw [hq, List.getD_eq_getD_get?, List.get?_map, hg]
          rfl
        rw [hqk, hp0, intentPositions_of_le (minStart_le (List.get?_mem hg))]
        rfl
    · simp only [coverage, hlm]
      have hqi := (forall2_getD hf2 k hk).1
      rw [hqi, map_pos_intentAt]
  refine ⟨hchar, ?_, ?_, ?_⟩
  · rw [hchar]
    exact intentPositions_sorted log _ _
  · intro p hp
    rw [hchar] at hp
    have hm := mem_intentPositions.mp hp
    exact ⟨hm.1, hm.2.2⟩
  · intro p h1 h2 h3
    rw [hchar]
    exact mem_intentPositions.mpr ⟨h1, h2, h3⟩

/-- Witness for C2: log [I@0, AI@1, I@2], one queue at 0, three loop
iterations; the queue received exactly positions 0 and 2. -/
theorem c2_intention_ordering_witness :
    ((ReaderState.mk 3 (some 1)
        [⟨3, [⟨0, 7⟩, ⟨2, 9⟩], false⟩]).queues.getD 0
        ⟨0, [], false⟩).q.map Intention.pos =
      intentPositions
        (fun p => if p = 0 then some (.intent 7) else if p = 1 then
          some (.afterImage 0) else if p = 2 then some (.intent 9) else none)
        ([0].getD 0 0)
        (coverage [0] (ReaderState.mk 3 (some 1)
          [⟨3, [⟨0, 7⟩, ⟨2, 9⟩], false⟩])) := by
  exact (c2_intention_ordering
    (fun p => if p = 0 then some (.intent 7) else if p = 1 then
      some (.afterImage 0) else if p = 2 then some (.intent 9) else none)
    (fun _ => none) [0] 3
    (ReaderState.mk 3 (some 1) [⟨3, [⟨0, 7⟩, ⟨2, 9⟩], false⟩])
    (by simp) (fun p i h => by cases h) (by decide) 0 (by decide)).1

end CruzDB
